import Mathlib

/-!
Shallow embedding of the cJSON library (src/cJSON/cJSON.c): the value-tree
data model, the string and number codecs, the recursive-descent parser, the
serializer in both its buffered and unbuffered modes, the growable print
buffer, and the sibling-list mutation API.

Modelling conventions:
* C strings are lists of byte values (naturals, 0 < b < 256); the NUL
  terminator is the end of the list, so modelled strings are NUL-free.
* C doubles are idealized as rationals; DBL_EPSILON is 2 ^ (-52).
* C ints are naturals/integers with explicit range hypotheses where
  overflow would matter.
* The parser's mutual recursion is fuelled; every recursive call consumes
  one unit, and the entry point passes fuel that provably exceeds the
  needs of any printed tree (the C original recurses without bound).
* sprintf %d is modelled exactly; %f, %e and %.0f are modelled as
  round-to-6-decimals / exponential rendering over the idealized rationals.
* Allocation failure is modelled only where a claim mentions it (ensure);
  elsewhere allocation is assumed to succeed.
-/

namespace CJson

/-- C strings as byte lists (NUL-free; the terminator is the list end). -/
abbrev Bytes := List Nat

/-- skip: advance over bytes with value at most 32 (whitespace/control). -/
def skip (s : Bytes) : Bytes := s.dropWhile (fun c => decide (c ≤ 32))

/-- strncmp(value, lit, lit.length) == 0, i.e. lit is a leading sequence of
the input (a shorter input mismatches at its NUL, as in C). -/
def leadsWith : Bytes → Bytes → Bool
  | [], _ => true
  | _ :: _, [] => false
  | a :: as, b :: bs => a == b && leadsWith as bs

/-- C cast (int)d: truncation of a double toward zero. -/
def truncQ (q : ℚ) : ℤ := if q < 0 then -(⌊-q⌋) else ⌊q⌋

/-- List of n tab characters. -/
def tabs (n : ℕ) : Bytes := List.replicate n 9

/-! ## String codec (parse_hex4, parse_string, print_string_ptr) -/

/-- Value of one hex digit character, or none. -/
def hexDigitVal (c : Nat) : Option Nat :=
  if 48 ≤ c ∧ c ≤ 57 then some (c - 48)
  else if 65 ≤ c ∧ c ≤ 70 then some (10 + c - 65)
  else if 97 ≤ c ∧ c ≤ 102 then some (10 + c - 97)
  else none

/-- parse_hex4: four hex digits to a value; any non-hex digit yields 0
(the C code returns 0 from whichever digit fails). -/
def parse_hex4 (s : Bytes) : Nat :=
  match s with
  | c1 :: c2 :: c3 :: c4 :: _ =>
    match hexDigitVal c1, hexDigitVal c2, hexDigitVal c3, hexDigitVal c4 with
    | some h1, some h2, some h3, some h4 => ((h1 * 16 + h2) * 16 + h3) * 16 + h4
    | _, _, _, _ => 0
  | _ => 0

/-- UTF-8 encoding exactly as the tail of parse_string writes it
(continuation bytes (uc | 0x80) & 0xBF high-to-low, then the lead byte
with the firstByteMark for the length). -/
def utf8bytes (uc :  Nat) : Bytes :=
  if uc < 0x80 then [uc]
  else if uc < 0x800 then
    [(uc >>> 6) ||| 0xC0, (uc ||| 0x80) &&& 0xBF]
  else if uc < 0x10000 then
    [(uc >>> 12) ||| 0xE0, ((uc >>> 6) ||| 0x80) &&& 0xBF, (uc ||| 0x80) &&& 0xBF]
  else
    [(uc >>> 18) ||| 0xF0, ((uc >>> 12) ||| 0x80) &&& 0xBF,
     ((uc >>> 6) ||| 0x80) &&& 0xBF, (uc ||| 0x80) &&& 0xBF]

/-- Body loop of parse_string, from just after the opening quote.  Returns
the decoded bytes and the remaining input (beginning with the closing
quote if one was found).  The allocation-size pre-pass of the C code is
omitted: it has no effect on the produced value.  A trailing lone
backslash at end of input is undefined behaviour in C (the scan runs past
the terminator); the model stops there. -/
def parse_string_body : Bytes → Bytes × Bytes
  | [] => ([], [])
  | c :: rest =>
    if c = 34 then ([], 34 :: rest)
    else if h92 : c ≠ 92 then
      let p := parse_string_body rest
      (c :: p.1, p.2)
    else
      match rest with
      | [] => ([], [])
      | e :: r =>
        if e = 98 then let p := parse_string_body r; (8 :: p.1, p.2)
        else if e = 102 then let p := parse_string_body r; (12 :: p.1, p.2)
        else if e = 110 then let p := parse_string_body r; (10 :: p.1, p.2)
        else if e = 114 then let p := parse_string_body r; (13 :: p.1, p.2)
        else if e = 116 then let p := parse_string_body r; (9 :: p.1, p.2)
        else if e = 117 then
          let uc := parse_hex4 r
          if (0xDC00 ≤ uc ∧ uc ≤ 0xDFFF) ∨ uc = 0 then
            parse_string_body (r.drop 4)
          else if 0xD800 ≤ uc ∧ uc ≤ 0xDBFF then
            match hdrop : r.drop 4 with
            | 92 :: 117 :: r2 =>
              let uc2 := parse_hex4 r2
              if uc2 < 0xDC00 ∨ 0xDFFF < uc2 then
                parse_string_body (r2.drop 4)
              else
                let p := parse_string_body (r2.drop 4)
                (utf8bytes (0x10000 + (((uc &&& 0x3FF) <<< 10) ||| (uc2 &&& 0x3FF))) ++ p.1, p.2)
            | _ => parse_string_body (r.drop 4)
          else
            let p := parse_string_body (r.drop 4)
            (utf8bytes uc ++ p.1, p.2)
        else
          let p := parse_string_body r
          (e :: p.1, p.2)
  termination_by s => s.length
  decreasing_by
  all_goals simp_all [List.length_drop]
  all_goals try omega
  all_goals
    have hlen : r2.length + 2 = r.length - 4 := by
      have := congrArg List.length hdrop
      simpa [List.length_drop] using this.symm
    omega

/-- parse_string: requires a leading quote (else the error pointer is set
to the input position); decodes the body; an unterminated string still
succeeds in the C code (the final `if (*ptr == quote) ptr++` is skipped). -/
def parse_string (s : Bytes) : Except Bytes (Bytes × Bytes) :=
  match s with
  | 34 :: body =>
    let p := parse_string_body body
    match p.2 with
    | 34 :: rest => .ok (p.1, rest)
    | r => .ok (p.1, r)
  | _ => .error s

/-- Lowercase hex digit character of a value below 16 (sprintf %x). -/
def hexChar (n : Nat) : Nat := if n < 10 then 48 + n else 87 + n

/-- Escape table of print_string_ptr for one byte: printable bytes copy
verbatim; the seven named escapes take their two-character form; every
other byte below 32 becomes a backslash-u escape with four hex digits. -/
def escapeChar (c : Nat) : Bytes :=
  if 31 < c ∧ c ≠ 34 ∧ c ≠ 92 then [c]
  else if c = 92 then [92, 92]
  else if c = 34 then [92, 34]
  else if c = 8 then [92, 98]
  else if c = 12 then [92, 102]
  else if c = 10 then [92, 110]
  else if c = 13 then [92, 114]
  else if c = 9 then [92, 116]
  else [92, 117, 48, 48, hexChar (c / 16), hexChar (c % 16)]

/-- The flag pass of print_string_ptr: is any byte one that needs
escaping?  The C test (*ptr > 0 && *ptr < 32) is on signed char, so bytes
at and above 128 (negative as signed) are not flagged; the model's
0 < c < 32 agrees for byte values. -/
def needsEscaping (s : Bytes) : Bool :=
  s.any (fun c => decide ((0 < c ∧ c < 32) ∨ c = 34 ∨ c = 92))

/-- print_string_ptr: quote-wrapped copy on the fast path (no byte needs
escaping), otherwise the per-byte escape table.  Both paths produce the
concatenation of the per-byte renderings.  The dead null-pointer branch of
the C code is not representable (strings are total lists here). -/
def print_string_ptr (s : Bytes) : Bytes :=
  if needsEscaping s then 34 :: (s.flatMap escapeChar) ++ [34]
  else 34 :: s ++ [34]

/-! ## Number codec (parse_number, print_number) -/

/-- Integer-part digit loop of parse_number: n = n*10 + digit. -/
def pn_digits : Bytes → ℚ → ℚ × Bytes
  | [], n => (n, [])
  | c :: r, n =>
    if 48 ≤ c ∧ c ≤ 57 then pn_digits r (n * 10 + ((c - 48 : ℕ) : ℚ)) else (n, c :: r)

/-- Fraction digit loop of parse_number: accumulates digits and decrements
the decimal scale once per digit. -/
def pn_frac : Bytes → ℚ → ℤ → (ℚ × ℤ) × Bytes
  | [], n, sc => ((n, sc), [])
  | c :: r, n, sc =>
    if 48 ≤ c ∧ c ≤ 57 then pn_frac r (n * 10 + ((c - 48 : ℕ) : ℚ)) (sc - 1)
    else ((n, sc), c :: r)

/-- Exponent digit loop of parse_number. -/
def pn_exp : Bytes → ℕ → ℕ × Bytes
  | [], sub => (sub, [])
  | c :: r, sub =>
    if 48 ≤ c ∧ c ≤ 57 then pn_exp r (sub * 10 + (c - 48)) else (sub, c :: r)

/-- parse_number: optional minus sign, a single skipped leading zero, a
run of digits starting 1-9, an optional fraction introduced by a dot
followed by a digit, an optional exponent with optional sign; value =
sign * mantissa * 10 ^ (scale + subscale * signsubscale); the integer
cache is the truncation of the value.  Returns the first unconsumed
position (the function itself never fails). -/
def parse_number (s : Bytes) : (ℚ × ℤ) × Bytes :=
  let psign : ℚ × Bytes :=
    match s with
    | 45 :: r => (-1, r)
    | _ => (1, s)
  let s2 : Bytes :=
    match psign.2 with
    | 48 :: r => r
    | _ => psign.2
  let pint : ℚ × Bytes :=
    match s2 with
    | c :: r => if 49 ≤ c ∧ c ≤ 57 then pn_digits (c :: r) 0 else (0, c :: r)
    | [] => (0, [])
  let pfrac : (ℚ × ℤ) × Bytes :=
    match pint.2 with
    | 46 :: c :: r =>
      if 48 ≤ c ∧ c ≤ 57 then pn_frac (c :: r) pint.1 0 else ((pint.1, 0), 46 :: c :: r)
    | w => ((pint.1, 0), w)
  let pexp : ℤ × Bytes :=
    match pfrac.2 with
    | c :: r =>
      if c = 101 ∨ c = 69 then
        match r with
        | 43 :: r2 => (((pn_exp r2 0).1 : ℤ), (pn_exp r2 0).2)
        | 45 :: r2 => (-((pn_exp r2 0).1 : ℤ), (pn_exp r2 0).2)
        | r2 => (((pn_exp r2 0).1 : ℤ), (pn_exp r2 0).2)
      else (0, c :: r)
    | [] => (0, [])
  let n : ℚ := psign.1 * pfrac.1.1 * (10 : ℚ) ^ (pfrac.1.2 + pexp.1)
  ((n, truncQ n), pexp.2)

/-- DBL_EPSILON of IEEE double, as a rational. -/
def DBL_EPSILON : ℚ := 1 / 2 ^ 52

/-- INT_MAX as a rational (the C code compares the double against it). -/
def INT_MAX : ℚ := 2147483647

/-- INT_MIN as a rational. -/
def INT_MIN : ℚ := -2147483648

/-- Decimal digits of a natural, most significant first, prepended to an
accumulator (the recursion of a %u rendering). -/
def natStrAux : ℕ → Bytes → Bytes
  | n, acc => if n < 10 then (48 + n) :: acc else natStrAux (n / 10) ((48 + n % 10) :: acc)
  termination_by n _ => n
  decreasing_by exact Nat.div_lt_self (by omega) (by omega)

/-- Decimal rendering of a natural. -/
def natStr (n : ℕ) : Bytes := natStrAux n []

/-- sprintf %d: signed decimal rendering. -/
def intStr (i : ℤ) : Bytes := if i < 0 then 45 :: natStr (-i).toNat else natStr i.toNat

/-- Number of decimal digits the %u rendering of n emits. -/
def numDigits : ℕ → ℕ
  | n => if n < 10 then 1 else numDigits (n / 10) + 1
  termination_by n => n
  decreasing_by exact Nat.div_lt_self (by omega) (by omega)

/-- Exactly six decimal digits, zero padded (the fraction field of %f/%e). -/
def pad6 (n : ℕ) : Bytes :=
  [48 + n / 100000 % 10, 48 + n / 10000 % 10, 48 + n / 1000 % 10,
   48 + n / 100 % 10, 48 + n / 10 % 10, 48 + n % 10]

/-- Magnitude part of sprintf %f (six rounded decimals) for q ≥ 0. -/
def fixed6 (q : ℚ) : Bytes :=
  let n := (⌊q * 1000000 + 1 / 2⌋).toNat
  natStr (n / 1000000) ++ 46 :: pad6 (n % 1000000)

/-- sprintf("%f", d) over the idealized rational double. -/
def fmtFixed (q : ℚ) : Bytes := if q < 0 then 45 :: fixed6 (-q) else fixed6 q

/-- sprintf("%.0f", d): round to the nearest integer, no decimal point
(within print_number this branch only sees values within DBL_EPSILON of an
integer, where rounding is unambiguous). -/
def fmtWhole (q : ℚ) : Bytes := intStr ⌊q + 1 / 2⌋

/-- Exponent field of %e: sign then at least two digits. -/
def expDigits (n : ℕ) : Bytes := if n < 10 then [48, 48 + n] else natStr n

/-- sprintf("%e", d) over the idealized rational double: normalized
mantissa rounded to six decimals, then the two-digit-minimum exponent. -/
def fmtExp (q : ℚ) : Bytes :=
  if q = 0 then [48, 46, 48, 48, 48, 48, 48, 48, 101, 43, 48, 48]
  else
    let a := |q|
    let k : ℤ := Int.log 10 a
    let m := (⌊a / (10 : ℚ) ^ k * 1000000 + 1 / 2⌋).toNat
    let mk : ℕ × ℤ := if m = 10000000 then (1000000, k + 1) else (m, k)
    (if q < 0 then [45] else []) ++ natStr (mk.1 / 1000000) ++ 46 :: pad6 (mk.1 % 1000000)
      ++ 101 :: (if mk.2 < 0 then 45 else 43) :: expDigits mk.2.natAbs

/-- print_number: "0" for an exactly-zero double; the plain integer cache
when it is within DBL_EPSILON of the double and the double is inside
32-bit signed range; otherwise %.0f for near-integers below 1e60, %e for
magnitudes below 1e-6 or above 1e9, and %f for everything else. -/
def print_number (d : ℚ) (vi : ℤ) : Bytes :=
  if d = 0 then [48]
  else if |((vi : ℚ)) - d| ≤ DBL_EPSILON ∧ d ≤ INT_MAX ∧ INT_MIN ≤ d then intStr vi
  else if |((⌊d⌋ : ℤ) : ℚ) - d| ≤ DBL_EPSILON ∧ |d| < 10 ^ 60 then fmtWhole d
  else if |d| < 1 / 1000000 ∨ 1000000000 < |d| then fmtExp d
  else fmtFixed d

/-! ## The value tree -/

mutual
/-- A cJSON node: the type tag together with the payload that the tag
makes meaningful (valuedouble plus the valueint cache for numbers,
valuestring for strings, the child list for arrays/objects).  The
valueint=1 that parsing `true` sets is not part of the structural data
(booleans carry no payload). -/
inductive JVal : Type where
  | null : JVal
  | jfalse : JVal
  | jtrue : JVal
  | num (d : ℚ) (i : ℤ) : JVal
  | str (s : Bytes) : JVal
  | arr (l : JList) : JVal
  | obj (l : JMembers) : JVal
/-- Child list of an array node. -/
inductive JList : Type where
  | nil : JList
  | cons (hd : JVal) (tl : JList) : JList
/-- Child list of an object node: each member has a key. -/
inductive JMembers : Type where
  | nil : JMembers
  | cons (key : Bytes) (val : JVal) (tl : JMembers) : JMembers
end

deriving instance DecidableEq for JVal

/-- Array children as a plain list. -/
def JList.toList : JList → List JVal
  | .nil => []
  | .cons c tl => c :: tl.toList

/-- Object members as a plain list of key/value pairs. -/
def JMembers.toList : JMembers → List (Bytes × JVal)
  | .nil => []
  | .cons k v tl => (k, v) :: tl.toList

/-- Build a JList from a plain list. -/
def JList.ofList : List JVal → JList
  | [] => .nil
  | c :: tl => .cons c (JList.ofList tl)

/-- Build JMembers from a plain list. -/
def JMembers.ofList : List (Bytes × JVal) → JMembers
  | [] => .nil
  | kv :: tl => .cons kv.1 kv.2 (JMembers.ofList tl)

/-- Join a list of byte strings with a separator (used only to state the
formatting claims). -/
def sepJoin (sep : Bytes) : List Bytes → Bytes
  | [] => []
  | [x] => x
  | x :: xs => x ++ sep ++ sepJoin sep xs

/-! ## Serializer, unbuffered mode (print_value / print_array /
print_object with p = NULL): every child is rendered to its own string
and the parent concatenates them with the separators of the chosen
format. -/

mutual
/-- print_value, unbuffered: dispatch on the node type. -/
def print_value : JVal → ℕ → Bool → Bytes
  | .null, _, _ => [110, 117, 108, 108]
  | .jfalse, _, _ => [102, 97, 108, 115, 101]
  | .jtrue, _, _ => [116, 114, 117, 101]
  | .num d i, _, _ => print_number d i
  | .str s, _, _ => print_string_ptr s
  | .arr l, depth, fmt => print_array l depth fmt
  | .obj l, depth, fmt => print_object l depth fmt
/-- print_array: empty renders as the two brackets; otherwise the children
joined by a comma (plus a space when formatted), bracket wrapped. -/
def print_array : JList → ℕ → Bool → Bytes
  | .nil, _, _ => [91, 93]
  | .cons c tl, depth, fmt =>
    91 :: (print_value c (depth + 1) fmt ++ print_array_items tl depth fmt) ++ [93]
/-- Remaining array children, each preceded by its separator. -/
def print_array_items : JList → ℕ → Bool → Bytes
  | .nil, _, _ => []
  | .cons c tl, depth, fmt =>
    (44 :: (if fmt then [32] else [])) ++ print_value c (depth + 1) fmt
      ++ print_array_items tl depth fmt
/-- print_object: the empty object renders the two braces (formatted: a
newline and the closing indentation of depth-1 tabs); otherwise the
members at depth+1, one per line when formatted, then depth closing tabs. -/
def print_object : JMembers → ℕ → Bool → Bytes
  | .nil, depth, fmt =>
    if fmt then (123 :: 10 :: tabs (depth - 1)) ++ [125] else [123, 125]
  | .cons k v tl, depth, fmt =>
    (123 :: (if fmt then [10] else [])) ++ print_object_items (JMembers.cons k v tl) (depth + 1) fmt
      ++ (if fmt then tabs depth else []) ++ [125]
/-- Object members: leading tabs when formatted, the escaped key, a colon
(plus a tab when formatted), the value, a comma unless last, and a newline
when formatted. -/
def print_object_items : JMembers → ℕ → Bool → Bytes
  | .nil, _, _ => []
  | .cons k v tl, depth, fmt =>
    (if fmt then tabs depth else []) ++ print_string_ptr k ++ 58 :: (if fmt then [9] else [])
      ++ print_value v depth fmt
      ++ (match tl with | .nil => [] | .cons _ _ _ => [44])
      ++ (if fmt then [10] else [])
      ++ print_object_items tl depth fmt
end

/-- cJSON_Print: formatted, unbuffered. -/
def cJSON_Print (t : JVal) : Bytes := print_value t 0 true

/-- cJSON_PrintUnformatted: compact, unbuffered. -/
def cJSON_PrintUnformatted (t : JVal) : Bytes := print_value t 0 false

/-! ## Serializer, buffered mode (printbuffer path).  Capacity handling is
modelled separately by `ensure` below; with allocation succeeding, ensure
never changes already-written content and every write lands just past the
written region, so the buffer content is the accumulator threaded here.
The offset bookkeeping through `update` (strlen from the old offset) is
faithful because every written chunk is NUL-terminated and NUL-free. -/

mutual
/-- print_value writing into a print buffer holding acc. -/
def print_value_buf : JVal → ℕ → Bool → Bytes → Bytes
  | .null, _, _, acc => acc ++ [110, 117, 108, 108]
  | .jfalse, _, _, acc => acc ++ [102, 97, 108, 115, 101]
  | .jtrue, _, _, acc => acc ++ [116, 114, 117, 101]
  | .num d i, _, _, acc => acc ++ print_number d i
  | .str s, _, _, acc => acc ++ print_string_ptr s
  | .arr l, depth, fmt, acc => print_array_buf l depth fmt acc
  | .obj l, depth, fmt, acc => print_object_buf l depth fmt acc
/-- print_array, buffered: bracket, children with separators written after
each non-final child, bracket. -/
def print_array_buf : JList → ℕ → Bool → Bytes → Bytes
  | .nil, _, _, acc => acc ++ [91, 93]
  | .cons c tl, depth, fmt, acc =>
    print_array_items_buf (JList.cons c tl) depth fmt (acc ++ [91]) ++ [93]
/-- The buffered child loop of print_array. -/
def print_array_items_buf : JList → ℕ → Bool → Bytes → Bytes
  | .nil, _, _, acc => acc
  | .cons c tl, depth, fmt, acc =>
    let a1 := print_value_buf c (depth + 1) fmt acc
    let a2 := match tl with
      | .nil => a1
      | .cons _ _ => a1 ++ 44 :: (if fmt then [32] else [])
    print_array_items_buf tl depth fmt a2
/-- print_object, buffered. -/
def print_object_buf : JMembers → ℕ → Bool → Bytes → Bytes
  | .nil, depth, fmt, acc =>
    acc ++ (if fmt then (123 :: 10 :: tabs (depth - 1)) ++ [125] else [123, 125])
  | .cons k v tl, depth, fmt, acc =>
    print_object_items_buf (JMembers.cons k v tl) (depth + 1) fmt
        (acc ++ 123 :: (if fmt then [10] else []))
      ++ (if fmt then tabs depth else []) ++ [125]
/-- The buffered member loop of print_object. -/
def print_object_items_buf : JMembers → ℕ → Bool → Bytes → Bytes
  | .nil, _, _, acc => acc
  | .cons k v tl, depth, fmt, acc =>
    let a1 := acc ++ (if fmt then tabs depth else [])
    let a2 := a1 ++ print_string_ptr k
    let a3 := a2 ++ 58 :: (if fmt then [9] else [])
    let a4 := print_value_buf v depth fmt a3
    let a5 := a4 ++ (match tl with | .nil => [] | .cons _ _ _ => [44])
      ++ (if fmt then [10] else [])
    print_object_items_buf tl depth fmt a5
end

/-- cJSON_PrintBuffered: serialize through a caller-seeded growable buffer
(the seed size affects only reallocation, never content). -/
def cJSON_PrintBuffered (t : JVal) (fmt : Bool) : Bytes := print_value_buf t 0 fmt []

/-! ## Recursive-descent parser.  Failure carries the error-pointer
position as the remaining suffix at the point of failure. -/

mutual
/-- parse_value: literals first, then dispatch on the first byte; any
other byte sets the error pointer. -/
def parse_value : ℕ → Bytes → Except Bytes (JVal × Bytes)
  | 0, s => .error s
  | fuel + 1, s =>
    if leadsWith [110, 117, 108, 108] s then .ok (.null, s.drop 4)
    else if leadsWith [102, 97, 108, 115, 101] s then .ok (.jfalse, s.drop 5)
    else if leadsWith [116, 114, 117, 101] s then .ok (.jtrue, s.drop 4)
    else
      match s with
      | [] => .error []
      | c :: r =>
        if c = 34 then
          match parse_string (c :: r) with
          | .error e => .error e
          | .ok (sv, rest) => .ok (.str sv, rest)
        else if c = 45 ∨ (48 ≤ c ∧ c ≤ 57) then
          let pn := parse_number (c :: r)
          .ok (.num pn.1.1 pn.1.2, pn.2)
        else if c = 91 then parse_array fuel (c :: r)
        else if c = 123 then parse_object fuel (c :: r)
        else .error (c :: r)
/-- parse_array: bracket, empty short-circuit, first child, then the
comma loop, closing bracket. -/
def parse_array : ℕ → Bytes → Except Bytes (JVal × Bytes)
  | 0, s => .error s
  | fuel + 1, s =>
    match s with
    | 91 :: r =>
      let v := skip r
      match v with
      | 93 :: r2 => .ok (.arr .nil, r2)
      | _ =>
        match parse_value fuel (skip v) with
        | .error e => .error e
        | .ok (c, r2) =>
          match parse_array_tail fuel (skip r2) with
          | .error e => .error e
          | .ok (tl, r3) => .ok (.arr (.cons c tl), r3)
    | _ => .error s
/-- The comma loop of parse_array, ending at the closing bracket. -/
def parse_array_tail : ℕ → Bytes → Except Bytes (JList × Bytes)
  | 0, s => .error s
  | fuel + 1, s =>
    match s with
    | 44 :: r =>
      match parse_value fuel (skip r) with
      | .error e => .error e
      | .ok (c, r2) =>
        match parse_array_tail fuel (skip r2) with
        | .error e => .error e
        | .ok (tl, r3) => .ok (.cons c tl, r3)
    | 93 :: r => .ok (.nil, r)
    | _ => .error s
/-- parse_object: brace, empty short-circuit, then string key, colon,
value, the comma loop, closing brace. -/
def parse_object : ℕ → Bytes → Except Bytes (JVal × Bytes)
  | 0, s => .error s
  | fuel + 1, s =>
    match s with
    | 123 :: r =>
      let v := skip r
      match v with
      | 125 :: r2 => .ok (.obj .nil, r2)
      | _ =>
        match parse_string (skip v) with
        | .error e => .error e
        | .ok (k, r2) =>
          match skip r2 with
          | 58 :: r3 =>
            match parse_value fuel (skip r3) with
            | .error e => .error e
            | .ok (val, r4) =>
              match parse_object_tail fuel (skip r4) with
              | .error e => .error e
              | .ok (tl, r5) => .ok (.obj (.cons k val tl), r5)
          | w => .error w
    | _ => .error s
/-- The comma loop of parse_object, ending at the closing brace. -/
def parse_object_tail : ℕ → Bytes → Except Bytes (JMembers × Bytes)
  | 0, s => .error s
  | fuel + 1, s =>
    match s with
    | 44 :: r =>
      match parse_string (skip r) with
      | .error e => .error e
      | .ok (k, r2) =>
        match skip r2 with
        | 58 :: r3 =>
          match parse_value fuel (skip r3) with
          | .error e => .error e
          | .ok (val, r4) =>
            match parse_object_tail fuel (skip r4) with
            | .error e => .error e
            | .ok (tl, r5) => .ok (.cons k val tl, r5)
        | w => .error w
    | 125 :: r => .ok (.nil, r)
    | _ => .error s
end

/-- cJSON_ParseWithOpts: skip leading whitespace, parse one value, and
optionally require that only whitespace follows.  On success the returned
suffix is where parsing stopped; on failure the error suffix is the error
pointer.  The C original recurses without fuel; the fuel passed here is
large enough for every input the claims quantify over (adequacy is proved
where needed), so it is not observable. -/
def cJSON_ParseWithOpts (s : Bytes) (require_null_terminated : Bool) :
    Except Bytes (JVal × Bytes) :=
  match parse_value (2 * s.length + 2) (skip s) with
  | .error e => .error e
  | .ok (v, rest) =>
    if require_null_terminated then
      match skip rest with
      | [] => .ok (v, [])
      | e => .error e
    else .ok (v, rest)

/-- cJSON_Parse: parse without the null-terminated requirement. -/
def cJSON_Parse (s : Bytes) : Except Bytes (JVal × Bytes) :=
  cJSON_ParseWithOpts s false

/-! ## Growable print buffer (pow2gt, ensure) -/

/-- pow2gt: smallest power of two at least x, by smearing the leading one
bit rightward and adding one.  Modelled on naturals; faithful to the C
int version for 1 ≤ x ≤ 2^31 (the C version has signed wrap beyond). -/
def pow2gt (x : ℕ) : ℕ :=
  let x1 := x - 1
  let x2 := x1 ||| (x1 >>> 1)
  let x3 := x2 ||| (x2 >>> 2)
  let x4 := x3 ||| (x3 >>> 4)
  let x5 := x4 ||| (x4 >>> 8)
  let x6 := x5 ||| (x5 >>> 16)
  x6 + 1

/-- The printbuffer: storage (none models the NULL pointer of an
invalidated buffer), capacity, and the used offset. -/
structure printbuffer where
  buffer : Option Bytes
  length : ℕ
  offset : ℕ

/-- Buffer well-formedness: the storage (when present) has exactly the
recorded capacity, the offset is inside it, and an absent storage comes
with zero capacity. -/
def WFpb (p : printbuffer) : Prop :=
  (∀ b, p.buffer = some b → b.length = p.length)
  ∧ p.offset ≤ p.length
  ∧ (p.buffer = none → p.length = 0)

/-- ensure: guarantee needed free bytes past the offset.  If the capacity
already suffices, return the write position; otherwise reallocate to
pow2gt (offset + needed) bytes, copying the old storage (the fresh tail is
modelled as zero bytes, standing for the indeterminate bytes of malloc).
Allocation failure (allocOk = false) frees and clears the buffer.  Returns
the new buffer state and the write offset (none on failure). -/
def ensure (p : printbuffer) (needed : ℕ) (allocOk : Bool) : printbuffer × Option ℕ :=
  match p.buffer with
  | none => (p, none)
  | some buf =>
    let nd := needed + p.offset
    if nd ≤ p.length then (p, some p.offset)
    else
      let newsize := pow2gt nd
      if allocOk then
        ({ buffer := some (buf.take p.length ++ List.replicate (newsize - p.length) 0),
           length := newsize, offset := p.offset }, some p.offset)
      else ({ buffer := none, length := 0, offset := p.offset }, none)

/-! ## Tree mutation API over the sibling links.  The pointer graph is a
heap: per-node next/prev links (and the key string, for object members).
A parent holds only its first-child pointer. -/

/-- The sibling-link heap: next and prev pointers per node id, and the
key string of each node. -/
structure Heap where
  nxt : Nat → Option Nat
  prv : Nat → Option Nat
  key : Nat → Bytes

/-- The chain check: starting at cur whose predecessor is pr, the list l
is exactly the nodes reached by next, with matching prev back-links, and
the last node has no next. -/
def linksB (h : Heap) : Option Nat → Option Nat → List Nat → Bool
  | cur, _, [] => cur == none
  | cur, pr, n :: rest => cur == some n && h.prv n == pr && linksB h (h.nxt n) (some n) rest

/-- The sibling-list invariant for a parent with first-child pointer
first: some duplicate-free list of nodes is chained exactly. -/
def WFList (h : Heap) (first : Option Nat) (l : List Nat) : Prop :=
  linksB h first none l = true ∧ l.Nodup

/-- One pass of the chain check that stops after the listed nodes and
returns the cursor and predecessor reached, instead of demanding the
chain end there. -/
def linksFrom (h : Heap) : Option Nat → Option Nat → List Nat → Option (Option Nat × Option Nat)
  | cur, pr, [] => some (cur, pr)
  | cur, pr, n :: rest =>
    if cur = some n ∧ h.prv n = pr then linksFrom h (h.nxt n) (some n) rest else none

/-- suffix_object: link item after prev. -/
def suffix_object (h : Heap) (prev item : Nat) : Heap :=
  { h with nxt := Function.update h.nxt prev (some item),
           prv := Function.update h.prv item (some prev) }

/-- The tail walk of cJSON_AddItemToArray (while c and c->next), fuelled. -/
def walkEnd (h : Heap) (c : Nat) : ℕ → Nat
  | 0 => c
  | f + 1 =>
    match h.nxt c with
    | some n => walkEnd h n f
    | none => c

/-- The index walk (while c and which > 0). -/
def walkIdx (h : Heap) : Option Nat → ℕ → Option Nat
  | c, 0 => c
  | none, _ + 1 => none
  | some c, w + 1 => walkIdx h (h.nxt c) w

/-- cJSON_AddItemToArray: append item at the tail (empty list: become the
first child). -/
def cJSON_AddItemToArray (h : Heap) (child : Option Nat) (item : Nat) (fuel : ℕ) :
    Heap × Option Nat :=
  match child with
  | none => (h, some item)
  | some c => (suffix_object h (walkEnd h c fuel) item, some c)

/-- cJSON_AddItemToObject: set the item's key, then append as for arrays. -/
def cJSON_AddItemToObject (h : Heap) (child : Option Nat) (k : Bytes) (item : Nat)
    (fuel : ℕ) : Heap × Option Nat :=
  cJSON_AddItemToArray { h with key := Function.update h.key item k } child item fuel

/-- cJSON_DetachItemFromArray: walk to the index; splice the node out of
the chain; move the first-child pointer if it was the head; clear its own
links.  Returns (heap, first-child, detached node). -/
def cJSON_DetachItemFromArray (h : Heap) (child : Option Nat) (which : ℕ) :
    Heap × Option Nat × Option Nat :=
  match walkIdx h child which with
  | none => (h, child, none)
  | some c =>
    let h1 := match h.prv c with
      | some p => { h with nxt := Function.update h.nxt p (h.nxt c) }
      | none => h
    let h2 := match h1.nxt c with
      | some nx => { h1 with prv := Function.update h1.prv nx (h1.prv c) }
      | none => h1
    let child2 := if some c = child then h2.nxt c else child
    let h3 := { h2 with nxt := Function.update h2.nxt c none,
                        prv := Function.update h2.prv c none }
    (h3, child2, some c)

/-- C tolower for the default locale, on byte values. -/
def tolowerB (c : Nat) : Nat := if 65 ≤ c ∧ c ≤ 90 then c + 32 else c

/-- cJSON_strcasecmp equality: case-insensitive byte-string match. -/
def caseEq (a b : Bytes) : Bool := a.map tolowerB == b.map tolowerB

/-- The counting walk of the by-key operations (while c and the key
mismatches, advance and count). -/
def findKeyIdx (h : Heap) : Option Nat → Bytes → ℕ → ℕ → Option ℕ
  | none, _, _, _ => none
  | some c, k, i, 0 => if caseEq (h.key c) k then some i else none
  | some c, k, i, f + 1 =>
    if caseEq (h.key c) k then some i else findKeyIdx h (h.nxt c) k (i + 1) f

/-- cJSON_DetachItemFromObject: find the first case-insensitive key match
and detach by that index. -/
def cJSON_DetachItemFromObject (h : Heap) (child : Option Nat) (k : Bytes) (fuel : ℕ) :
    Heap × Option Nat × Option Nat :=
  match findKeyIdx h child k 0 fuel with
  | some i => cJSON_DetachItemFromArray h child i
  | none => (h, child, none)

/-- cJSON_InsertItemInArray: walk to the index (appending when past the
end); link the new item before that node. -/
def cJSON_InsertItemInArray (h : Heap) (child : Option Nat) (which : ℕ) (newitem : Nat)
    (fuel : ℕ) : Heap × Option Nat :=
  match walkIdx h child which with
  | none => cJSON_AddItemToArray h child newitem fuel
  | some c =>
    let h1 := { h with nxt := Function.update h.nxt newitem (some c),
                       prv := Function.update h.prv newitem (h.prv c) }
    let h2 := { h1 with prv := Function.update h1.prv c (some newitem) }
    if some c = child then (h2, some newitem)
    else
      match h2.prv newitem with
      | some p => ({ h2 with nxt := Function.update h2.nxt p (some newitem) }, child)
      | none => (h2, child)

/-- cJSON_ReplaceItemInArray: walk to the index; give the new item the old
node's links; fix the neighbours and the first-child pointer; clear the
displaced node's links (it is then deleted, which does not touch the
chain). -/
def cJSON_ReplaceItemInArray (h : Heap) (child : Option Nat) (which : ℕ)
    (newitem : Nat) : Heap × Option Nat :=
  match walkIdx h child which with
  | none => (h, child)
  | some c =>
    let h1 := { h with nxt := Function.update h.nxt newitem (h.nxt c),
                       prv := Function.update h.prv newitem (h.prv c) }
    let h2 := match h1.nxt newitem with
      | some nx => { h1 with prv := Function.update h1.prv nx (some newitem) }
      | none => h1
    let hc : Heap × Option Nat :=
      if some c = child then (h2, some newitem)
      else
        match h2.prv newitem with
        | some p => ({ h2 with nxt := Function.update h2.nxt p (some newitem) }, child)
        | none => (h2, child)
    ({ hc.1 with nxt := Function.update hc.1.nxt c none,
                 prv := Function.update hc.1.prv c none }, hc.2)

/-- cJSON_ReplaceItemInObject: find the first key match, give the new item
the key, and replace at that index. -/
def cJSON_ReplaceItemInObject (h : Heap) (child : Option Nat) (k : Bytes)
    (newitem : Nat) (fuel : ℕ) : Heap × Option Nat :=
  match findKeyIdx h child k 0 fuel with
  | some i =>
    cJSON_ReplaceItemInArray { h with key := Function.update h.key newitem k } child i newitem
  | none => (h, child)

/-- One mutation of the sibling list, for stating the common invariant. -/
inductive MutOp : Type where
  | addArr (item : Nat) : MutOp
  | addObj (k : Bytes) (item : Nat) : MutOp
  | insert (which : ℕ) (item : Nat) : MutOp
  | detach (which : ℕ) : MutOp
  | detachKey (k : Bytes) : MutOp
  | replace (which : ℕ) (item : Nat) : MutOp
  | replaceKey (k : Bytes) (item : Nat) : MutOp

/-- The node an operation links into the list, if any. -/
def opItem : MutOp → Option Nat
  | .addArr it => some it
  | .addObj _ it => some it
  | .insert _ it => some it
  | .replace _ it => some it
  | .replaceKey _ it => some it
  | .detach _ => none
  | .detachKey _ => none

/-- Apply a mutation, returning the heap and the parent's new first-child
pointer. -/
def applyOp (h : Heap) (child : Option Nat) (op : MutOp) (fuel : ℕ) : Heap × Option Nat :=
  match op with
  | .addArr it => cJSON_AddItemToArray h child it fuel
  | .addObj k it => cJSON_AddItemToObject h child k it fuel
  | .insert w it => cJSON_InsertItemInArray h child w it fuel
  | .detach w =>
    let r := cJSON_DetachItemFromArray h child w
    (r.1, r.2.1)
  | .detachKey k =>
    let r := cJSON_DetachItemFromObject h child k fuel
    (r.1, r.2.1)
  | .replace w it => cJSON_ReplaceItemInArray h child w it
  | .replaceKey k it => cJSON_ReplaceItemInObject h child k it fuel

/-! ## Good trees for the round-trip claim -/

mutual
/-- Trees the amended round-trip claim quantifies over: strings and keys
are byte strings (NUL-free), and every number is an exact 32-bit integer
with its cache in sync (the printable-without-loss numbers). -/
def goodV : JVal → Prop
  | .null => True
  | .jfalse => True
  | .jtrue => True
  | .num d i => d = (i : ℚ) ∧ -2147483648 ≤ i ∧ i ≤ 2147483647
  | .str s => ∀ c ∈ s, 0 < c ∧ c < 256
  | .arr l => goodL l
  | .obj l => goodM l
/-- goodV on every array child. -/
def goodL : JList → Prop
  | .nil => True
  | .cons c tl => goodV c ∧ goodL tl
/-- goodV on every member value, byte-string keys. -/
def goodM : JMembers → Prop
  | .nil => True
  | .cons k v tl => (∀ c ∈ k, 0 < c ∧ c < 256) ∧ goodV v ∧ goodM tl
end

/-! ## Parser fuel accounting -/

mutual
/-- Fuel sufficient for parse_value on the rendering of t. -/
def nfV : JVal → ℕ
  | .null => 1
  | .jfalse => 1
  | .jtrue => 1
  | .num _ _ => 1
  | .str _ => 1
  | .arr .nil => 2
  | .arr (.cons c tl) => 2 + nfV c + nfLA tl
  | .obj .nil => 2
  | .obj (.cons _ v tl) => 2 + nfV v + nfLO tl
/-- Fuel sufficient for parse_array_tail on the rendering of l. -/
def nfLA : JList → ℕ
  | .nil => 1
  | .cons c tl => 1 + nfV c + nfLA tl
/-- Fuel sufficient for parse_object_tail on the rendering of l. -/
def nfLO : JMembers → ℕ
  | .nil => 1
  | .cons _ v tl => 1 + nfV v + nfLO tl
end

/-- Separator the serializer emits after an object member when more
members follow (the comma of print_object). -/
def objSep : JMembers → Bytes
  | .nil => []
  | .cons _ _ _ => [44]

/-- Byte classes that can follow a printed value inside a rendering
(separator, closing bracket or brace, newline) or nothing: none of them
can extend a literal, a number, or a string. -/
def Bnd : Bytes → Prop
  | [] => True
  | c :: _ => c = 44 ∨ c = 93 ∨ c = 125 ∨ c = 10

end CJson

namespace CJson

/-! ## Helper lemmas: string codec -/

theorem hexDigitVal_hexChar (n : ℕ) (h : n < 16) : hexDigitVal (hexChar n) = some n := by
  interval_cases n <;> decide

theorem psb_escapeChar (c : ℕ) (hc : 0 < c) (hc2 : c < 256) (rest : Bytes) :
    parse_string_body (escapeChar c ++ rest)
      = (c :: (parse_string_body rest).1, (parse_string_body rest).2) := by
  by_cases h1 : 31 < c ∧ c ≠ 34 ∧ c ≠ 92
  · have e1 : escapeChar c = [c] := by simp [escapeChar, h1]
    rw [e1, List.cons_append, List.nil_append]
    conv_lhs => rw [parse_string_body.eq_def]
    simp [h1.2.1, h1.2.2]
  · rcases Nat.lt_or_ge 31 c with h2 | h2
    · have hcc : c = 34 ∨ c = 92 := by
        by_contra hcon
        push_neg at hcon
        exact h1 ⟨h2, hcon.1, hcon.2⟩
      rcases hcc with rfl | rfl
      · have e1 : escapeChar 34 = [92, 34] := by simp [escapeChar]
        rw [e1, List.cons_append, List.cons_append, List.nil_append]
        conv_lhs => rw [parse_string_body.eq_def]
        simp
      · have e1 : escapeChar 92 = [92, 92] := by simp [escapeChar]
        rw [e1, List.cons_append, List.cons_append, List.nil_append]
        conv_lhs => rw [parse_string_body.eq_def]
        simp
    · interval_cases c <;>
      · simp only [escapeChar, hexChar]
        norm_num
        conv_lhs => rw [parse_string_body.eq_def]
        simp [parse_hex4, hexDigitVal, utf8bytes]

theorem psb_escaped_body (s : Bytes) (hb : ∀ c ∈ s, 0 < c ∧ c < 256) (t : Bytes) :
    parse_string_body (s.flatMap escapeChar ++ 34 :: t) = (s, 34 :: t) := by
  induction s with
  | nil =>
    rw [List.flatMap_nil, List.nil_append, parse_string_body.eq_def]
    simp
  | cons c s ih =>
    have hc := hb c (by simp)
    have hrec := psb_escapeChar c hc.1 hc.2 (s.flatMap escapeChar ++ 34 :: t)
    have ih2 := ih (fun d hd => hb d (by simp [hd]))
    simp only [List.flatMap_cons, List.append_assoc] at hrec ⊢
    rw [hrec, ih2]

theorem flatMap_escape_plain (s : Bytes) (hb : ∀ c ∈ s, 0 < c)
    (h : needsEscaping s = false) : s.flatMap escapeChar = s := by
  induction s with
  | nil => simp
  | cons c s ih =>
    simp only [needsEscaping, List.any_cons, Bool.or_eq_false_iff] at h
    have hc := hb c (by simp)
    have e1 : escapeChar c = [c] := by
      have := h.1
      simp only [decide_eq_false_iff_not, not_or, not_and, not_lt] at this
      have h34 : c ≠ 34 := this.2.1
      have h92 : c ≠ 92 := this.2.2
      have h31 : 31 < c := by
        rcases Nat.lt_or_ge 31 c with hh | hh
        · exact hh
        · exact absurd (this.1 hc) (by omega)
      simp [escapeChar, h31, h34, h92]
    have ih2 := ih (fun d hd => hb d (by simp [hd])) (by simpa [needsEscaping] using h.2)
    simp [e1, ih2]

theorem parse_string_print (s : Bytes) (hb : ∀ c ∈ s, 0 < c ∧ c < 256) (t : Bytes) :
    parse_string (print_string_ptr s ++ t) = .ok (s, t) := by
  have hbody : parse_string_body (s.flatMap escapeChar ++ 34 :: t) = (s, 34 :: t) :=
    psb_escaped_body s hb t
  by_cases hf : needsEscaping s
  · have : print_string_ptr s ++ t = 34 :: (s.flatMap escapeChar ++ 34 :: t) := by
      simp [print_string_ptr, hf]
    rw [this]
    simp [parse_string, hbody]
  · have hfl : s.flatMap escapeChar = s :=
      flatMap_escape_plain s (fun c hcs => (hb c hcs).1) (by simpa using hf)
    have : print_string_ptr s ++ t = 34 :: (s.flatMap escapeChar ++ 34 :: t) := by
      simp [print_string_ptr, hf, hfl]
    rw [this]
    simp [parse_string, hbody]

/-- C2: for every byte string (NUL-free), unescaping the escaper's output
recovers exactly the original string; the remaining input is empty. -/
theorem c2_string_escape_roundtrip (s : Bytes) (hb : ∀ c ∈ s, 0 < c ∧ c < 256) :
    parse_string (print_string_ptr s) = .ok (s, []) := by
  have := parse_string_print s hb []
  simpa using this

/-- C2 witness: a string containing a quote, a backslash, a control
character and the UTF-8 bytes of a supplementary code point. -/
theorem c2_string_escape_roundtrip_witness :
    (∀ c ∈ ([104, 34, 92, 7, 127, 240, 159, 152, 128] : Bytes), 0 < c ∧ c < 256)
      ∧ parse_string (print_string_ptr [104, 34, 92, 7, 127, 240, 159, 152, 128])
          = .ok ([104, 34, 92, 7, 127, 240, 159, 152, 128], []) :=
  ⟨by decide, c2_string_escape_roundtrip _ (by decide)⟩

end CJson

namespace CJson

/-! ## Helper lemmas: hex escapes and surrogates -/

theorem parse_hex4_head (a b c d : ℕ) (r : Bytes) :
    parse_hex4 (a :: b :: c :: d :: r) = parse_hex4 [a, b, c, d] := rfl

theorem parse_hex4_zero (c1 c2 c3 c4 : ℕ) (r : Bytes)
    (h : (hexDigitVal c1 = none ∨ hexDigitVal c2 = none ∨ hexDigitVal c3 = none
            ∨ hexDigitVal c4 = none)
         ∨ (c1 = 48 ∧ c2 = 48 ∧ c3 = 48 ∧ c4 = 48)) :
    parse_hex4 (c1 :: c2 :: c3 :: c4 :: r) = 0 := by
  rcases h with h | ⟨rfl, rfl, rfl, rfl⟩
  · cases e1 : hexDigitVal c1 <;> cases e2 : hexDigitVal c2 <;>
      cases e3 : hexDigitVal c3 <;> cases e4 : hexDigitVal c4 <;>
        simp_all [parse_hex4]
  · simp [parse_hex4, hexDigitVal]

theorem parse_string_total (body : Bytes) :
    ∃ out rest, parse_string (34 :: body) = .ok (out, rest) := by
  simp only [parse_string]
  split
  · exact ⟨_, _, rfl⟩
  · exact ⟨_, _, rfl⟩

/-- C10: a backslash-u escape whose four characters are not all hex
digits, and the escape with all-zero digits, decode to nothing (parse_hex4
returns 0 and the zero code unit is skipped), consuming exactly the six
escape characters, and string parsing never fails because of them. -/
theorem c10_nonhex_and_zero_escapes_dropped :
    (∀ c1 c2 c3 c4 r,
        ((hexDigitVal c1 = none ∨ hexDigitVal c2 = none ∨ hexDigitVal c3 = none
            ∨ hexDigitVal c4 = none)
          ∨ (c1 = 48 ∧ c2 = 48 ∧ c3 = 48 ∧ c4 = 48)) →
        parse_string_body (92 :: 117 :: c1 :: c2 :: c3 :: c4 :: r) = parse_string_body r)
  ∧ (∀ body, ∃ out rest, parse_string (34 :: body) = .ok (out, rest)) := by
  constructor
  · intro c1 c2 c3 c4 r h
    have hz := parse_hex4_zero c1 c2 c3 c4 r h
    conv_lhs => rw [parse_string_body.eq_def]
    simp [hz]
  · exact parse_string_total

/-- C10 witness: a non-hex escape and the zero escape both vanish. -/
theorem c10_witness :
    parse_string_body [92, 117, 90, 90, 48, 49, 92, 117, 48, 48, 48, 48, 65]
      = ([65], []) := by
  have h1 := c10_nonhex_and_zero_escapes_dropped.1 90 90 48 49
      [92, 117, 48, 48, 48, 48, 65] (Or.inl (Or.inl (by decide)))
  have h2 := c10_nonhex_and_zero_escapes_dropped.1 48 48 48 48 [65]
      (Or.inr (by decide))
  rw [h1, h2]
  conv_lhs => rw [parse_string_body.eq_def]
  simp [parse_string_body.eq_def]

end CJson

namespace CJson

theorem psb_nil : parse_string_body [] = ([], []) := by
  rw [parse_string_body.eq_def]

/-- C4: a high-surrogate unit followed by a valid low-surrogate escape is
combined by UTF-16 composition and emitted as UTF-8; a lone high
surrogate, a high surrogate followed by an invalid second escape, and a
bare low surrogate emit nothing; none of these makes string parsing fail. -/
theorem c4_utf16_surrogates :
    (∀ c1 c2 c3 c4 d1 d2 d3 d4 r,
        0xD800 ≤ parse_hex4 [c1, c2, c3, c4] → parse_hex4 [c1, c2, c3, c4] ≤ 0xDBFF →
        0xDC00 ≤ parse_hex4 [d1, d2, d3, d4] → parse_hex4 [d1, d2, d3, d4] ≤ 0xDFFF →
        parse_string_body
            (92 :: 117 :: c1 :: c2 :: c3 :: c4 :: 92 :: 117 :: d1 :: d2 :: d3 :: d4 :: r)
          = (utf8bytes (0x10000 + (((parse_hex4 [c1, c2, c3, c4] &&& 0x3FF) <<< 10)
                ||| (parse_hex4 [d1, d2, d3, d4] &&& 0x3FF))) ++ (parse_string_body r).1,
             (parse_string_body r).2))
  ∧ (∀ c1 c2 c3 c4 r,
        0xD800 ≤ parse_hex4 [c1, c2, c3, c4] → parse_hex4 [c1, c2, c3, c4] ≤ 0xDBFF →
        (∀ r2, r ≠ 92 :: 117 :: r2) →
        parse_string_body (92 :: 117 :: c1 :: c2 :: c3 :: c4 :: r) = parse_string_body r)
  ∧ (∀ c1 c2 c3 c4 d1 d2 d3 d4 r,
        0xD800 ≤ parse_hex4 [c1, c2, c3, c4] → parse_hex4 [c1, c2, c3, c4] ≤ 0xDBFF →
        (parse_hex4 [d1, d2, d3, d4] < 0xDC00 ∨ 0xDFFF < parse_hex4 [d1, d2, d3, d4]) →
        parse_string_body
            (92 :: 117 :: c1 :: c2 :: c3 :: c4 :: 92 :: 117 :: d1 :: d2 :: d3 :: d4 :: r)
          = parse_string_body r)
  ∧ (∀ c1 c2 c3 c4 r,
        0xDC00 ≤ parse_hex4 [c1, c2, c3, c4] → parse_hex4 [c1, c2, c3, c4] ≤ 0xDFFF →
        parse_string_body (92 :: 117 :: c1 :: c2 :: c3 :: c4 :: r) = parse_string_body r)
  ∧ (∀ body, ∃ out rest, parse_string (34 :: body) = .ok (out, rest)) := by
  refine ⟨?_, ?_, ?_, ?_, parse_string_total⟩
  · intro c1 c2 c3 c4 d1 d2 d3 d4 r h1 h2 h3 h4
    conv_lhs => rw [parse_string_body.eq_def]
    simp only [List.drop_succ_cons, List.drop_zero, parse_hex4_head]
    generalize hv : parse_hex4 [c1, c2, c3, c4] = v at *
    generalize hw : parse_hex4 [d1, d2, d3, d4] = w at *
    have e1 : ¬((56320 ≤ v ∧ v ≤ 57343) ∨ v = 0) := by omega
    have e3 : ¬(w < 56320 ∨ 57343 < w) := by omega
    norm_num [e1, e3, h1, h2]
  · intro c1 c2 c3 c4 r h1 h2 hr
    conv_lhs => rw [parse_string_body.eq_def]
    simp only [List.drop_succ_cons, List.drop_zero, parse_hex4_head]
    generalize hv : parse_hex4 [c1, c2, c3, c4] = v at *
    have e1 : ¬((56320 ≤ v ∧ v ≤ 57343) ∨ v = 0) := by omega
    norm_num [e1, h1, h2]
  · intro c1 c2 c3 c4 d1 d2 d3 d4 r h1 h2 h3
    conv_lhs => rw [parse_string_body.eq_def]
    simp only [List.drop_succ_cons, List.drop_zero, parse_hex4_head]
    generalize hv : parse_hex4 [c1, c2, c3, c4] = v at *
    generalize hw : parse_hex4 [d1, d2, d3, d4] = w at *
    have e1 : ¬((56320 ≤ v ∧ v ≤ 57343) ∨ v = 0) := by omega
    norm_num [e1, h1, h2, h3]
  · intro c1 c2 c3 c4 r h1 h2
    conv_lhs => rw [parse_string_body.eq_def]
    simp only [List.drop_succ_cons, List.drop_zero, parse_hex4_head]
    generalize hv : parse_hex4 [c1, c2, c3, c4] = v at *
    norm_num [h1, h2]

/-- C4 witness: the surrogate pair D83D DE00 decodes to the UTF-8 bytes of
U+1F600, and a lone high surrogate before a plain byte decodes to nothing. -/
theorem c4_utf16_surrogates_witness :
    parse_string_body [92, 117, 68, 56, 51, 68, 92, 117, 68, 69, 48, 48] = ([240, 159, 152, 128], [])
      ∧ parse_string_body [92, 117, 68, 56, 51, 68, 65] = ([65], []) := by
  constructor
  · have h := c4_utf16_surrogates.1 68 56 51 68 68 69 48 48 []
      (by decide) (by decide) (by decide) (by decide)
    rw [h, psb_nil]
    decide
  · have h := c4_utf16_surrogates.2.1 68 56 51 68 [65]
      (by decide) (by decide) (by intro r2 hcon; simp at hcon)
    rw [h]
    conv_lhs => rw [parse_string_body.eq_def]
    norm_num [psb_nil]

end CJson

namespace CJson

/-! ## Helper lemmas: decimal renderings -/

theorem natStrAux_mem (n : ℕ) : ∀ acc, ∀ c ∈ natStrAux n acc, (48 ≤ c ∧ c ≤ 57) ∨ c ∈ acc := by
  induction n using Nat.strong_induction_on with
  | _ n ih =>
    intro acc c hc
    rw [natStrAux.eq_def] at hc
    by_cases h10 : n < 10
    · simp only [h10, if_true] at hc
      rcases List.mem_cons.mp hc with rfl | hmem
      · exact Or.inl (by omega)
      · exact Or.inr hmem
    · simp only [h10, if_false] at hc
      rcases ih (n / 10) (Nat.div_lt_self (by omega) (by omega)) _ c hc with hd | hmem
      · exact Or.inl hd
      · rcases List.mem_cons.mp hmem with rfl | hmem2
        · exact Or.inl (by omega)
        · exact Or.inr hmem2

theorem natStr_mem (n : ℕ) : ∀ c ∈ natStr n, 48 ≤ c ∧ c ≤ 57 := by
  intro c hc
  rcases natStrAux_mem n [] c hc with h | h
  · exact h
  · simp at h

theorem intStr_mem (i : ℤ) : ∀ c ∈ intStr i, c = 45 ∨ (48 ≤ c ∧ c ≤ 57) := by
  intro c hc
  unfold intStr at hc
  by_cases hneg : i < 0
  · rw [if_pos hneg] at hc
    rcases List.mem_cons.mp hc with rfl | hmem
    · exact Or.inl rfl
    · exact Or.inr (natStr_mem _ c hmem)
  · rw [if_neg hneg] at hc
    exact Or.inr (natStr_mem _ c hc)

theorem intStr_no_dot (i : ℤ) : 46 ∉ intStr i := by
  intro hc
  rcases intStr_mem i 46 hc with h | h <;> omega

theorem intStr_no_e (i : ℤ) : 101 ∉ intStr i := by
  intro hc
  rcases intStr_mem i 101 hc with h | h <;> omega

theorem pad6_mem (n : ℕ) : ∀ c ∈ pad6 n, 48 ≤ c ∧ c ≤ 57 := by
  intro c hc
  simp only [pad6, List.mem_cons, List.mem_singleton, List.not_mem_nil, or_false] at hc
  have q1 : n / 100000 % 10 ≤ 9 := by omega
  have q2 : n / 10000 % 10 ≤ 9 := by omega
  have q3 : n / 1000 % 10 ≤ 9 := by omega
  have q4 : n / 100 % 10 ≤ 9 := by omega
  have q5 : n / 10 % 10 ≤ 9 := by omega
  have q6 : n % 10 ≤ 9 := by omega
  rcases hc with rfl | rfl | rfl | rfl | rfl | rfl <;> omega

theorem fixed6_has_dot (q : ℚ) : 46 ∈ fixed6 q := by
  simp [fixed6]

theorem fixed6_no_e (q : ℚ) : 101 ∉ fixed6 q := by
  intro hc
  simp only [fixed6, List.mem_append, List.mem_cons] at hc
  rcases hc with h | h | h
  · have := natStr_mem _ 101 h
    omega
  · omega
  · have := pad6_mem _ 101 h
    omega

theorem fmtFixed_has_dot (q : ℚ) : 46 ∈ fmtFixed q := by
  unfold fmtFixed
  split
  · exact List.mem_cons_of_mem _ (fixed6_has_dot _)
  · exact fixed6_has_dot _

theorem fmtFixed_no_e (q : ℚ) : 101 ∉ fmtFixed q := by
  unfold fmtFixed
  split
  · intro hc
    rcases List.mem_cons.mp hc with h | h
    · omega
    · exact fixed6_no_e _ h
  · exact fixed6_no_e _

theorem fmtExp_has_e (q : ℚ) : 101 ∈ fmtExp q := by
  unfold fmtExp
  split
  · simp
  · simp

theorem fmtWhole_no_dot (q : ℚ) : 46 ∉ fmtWhole q := intStr_no_dot _

theorem fmtWhole_no_e (q : ℚ) : 101 ∉ fmtWhole q := intStr_no_e _

/-- C3: the three-way print policy of print_number, with the branch
conditions exactly as the code orders them, and the claimed surface form
of each branch (no decimal point on the integer and whole branches,
exponential mark on the exponential branch, decimal point and no exponent
mark on the fixed branch). -/
theorem c3_print_number_policy (d : ℚ) (vi : ℤ) :
    (d = 0 → print_number d vi = [48])
  ∧ (d ≠ 0 → (|((vi : ℚ)) - d| ≤ DBL_EPSILON ∧ d ≤ INT_MAX ∧ INT_MIN ≤ d) →
      print_number d vi = intStr vi ∧ 46 ∉ print_number d vi ∧ 101 ∉ print_number d vi)
  ∧ (d ≠ 0 → ¬(|((vi : ℚ)) - d| ≤ DBL_EPSILON ∧ d ≤ INT_MAX ∧ INT_MIN ≤ d) →
      (|((⌊d⌋ : ℤ) : ℚ) - d| ≤ DBL_EPSILON ∧ |d| < 10 ^ 60) →
      print_number d vi = fmtWhole d ∧ 46 ∉ print_number d vi ∧ 101 ∉ print_number d vi)
  ∧ (d ≠ 0 → ¬(|((vi : ℚ)) - d| ≤ DBL_EPSILON ∧ d ≤ INT_MAX ∧ INT_MIN ≤ d) →
      ¬(|((⌊d⌋ : ℤ) : ℚ) - d| ≤ DBL_EPSILON ∧ |d| < 10 ^ 60) →
      (|d| < 1 / 1000000 ∨ 1000000000 < |d|) →
      print_number d vi = fmtExp d ∧ 101 ∈ print_number d vi)
  ∧ (d ≠ 0 → ¬(|((vi : ℚ)) - d| ≤ DBL_EPSILON ∧ d ≤ INT_MAX ∧ INT_MIN ≤ d) →
      ¬(|((⌊d⌋ : ℤ) : ℚ) - d| ≤ DBL_EPSILON ∧ |d| < 10 ^ 60) →
      ¬(|d| < 1 / 1000000 ∨ 1000000000 < |d|) →
      print_number d vi = fmtFixed d ∧ 46 ∈ print_number d vi ∧ 101 ∉ print_number d vi) := by
  refine ⟨?_, ?_, ?_, ?_, ?_⟩
  · intro h0
    simp [print_number, h0]
  · intro h0 hint
    have e : print_number d vi = intStr vi := by
      unfold print_number
      rw [if_neg h0, if_pos hint]
    exact ⟨e, by rw [e]; exact intStr_no_dot vi, by rw [e]; exact intStr_no_e vi⟩
  · intro h0 hint hwhole
    have e : print_number d vi = fmtWhole d := by
      unfold print_number
      rw [if_neg h0, if_neg hint, if_pos hwhole]
    exact ⟨e, by rw [e]; exact fmtWhole_no_dot d, by rw [e]; exact fmtWhole_no_e d⟩
  · intro h0 hint hwhole hexp
    have e : print_number d vi = fmtExp d := by
      unfold print_number
      rw [if_neg h0, if_neg hint, if_neg hwhole, if_pos hexp]
    exact ⟨e, by rw [e]; exact fmtExp_has_e d⟩
  · intro h0 hint hwhole hexp
    have e : print_number d vi = fmtFixed d := by
      unfold print_number
      rw [if_neg h0, if_neg hint, if_neg hwhole, if_neg hexp]
    exact ⟨e, by rw [e]; exact fmtFixed_has_dot d, by rw [e]; exact fmtFixed_no_e d⟩

/-- C3 witness: at d = 5 with cache 5 the integer branch fires; at d = 0
the zero branch fires. -/
theorem c3_print_number_policy_witness :
    print_number 5 5 = intStr 5 ∧ print_number 0 3 = [48] := by
  constructor
  · exact ((c3_print_number_policy 5 5).2.1 (by norm_num)
      (by norm_num [DBL_EPSILON, INT_MAX, INT_MIN])).1
  · exact (c3_print_number_policy 0 3).1 rfl

end CJson

namespace CJson

/-! ## Unfolding equations for the mutual printers -/

@[simp] theorem pv_null (d : ℕ) (fmt : Bool) : print_value .null d fmt = [110, 117, 108, 108] := by
  rw [print_value.eq_def]

@[simp] theorem pv_false (d : ℕ) (fmt : Bool) :
    print_value .jfalse d fmt = [102, 97, 108, 115, 101] := by
  rw [print_value.eq_def]

@[simp] theorem pv_true (d : ℕ) (fmt : Bool) : print_value .jtrue d fmt = [116, 114, 117, 101] := by
  rw [print_value.eq_def]

@[simp] theorem pv_num (q : ℚ) (i : ℤ) (d : ℕ) (fmt : Bool) :
    print_value (.num q i) d fmt = print_number q i := by
  rw [print_value.eq_def]

@[simp] theorem pv_str (s : Bytes) (d : ℕ) (fmt : Bool) :
    print_value (.str s) d fmt = print_string_ptr s := by
  rw [print_value.eq_def]

@[simp] theorem pv_arr (l : JList) (d : ℕ) (fmt : Bool) :
    print_value (.arr l) d fmt = print_array l d fmt := by
  rw [print_value.eq_def]

@[simp] theorem pv_obj (l : JMembers) (d : ℕ) (fmt : Bool) :
    print_value (.obj l) d fmt = print_object l d fmt := by
  rw [print_value.eq_def]

@[simp] theorem pa_nil (d : ℕ) (fmt : Bool) : print_array .nil d fmt = [91, 93] := by
  rw [print_array.eq_def]

@[simp] theorem pa_cons (c : JVal) (tl : JList) (d : ℕ) (fmt : Bool) :
    print_array (.cons c tl) d fmt
      = 91 :: (print_value c (d + 1) fmt ++ print_array_items tl d fmt) ++ [93] := by
  rw [print_array.eq_def]

@[simp] theorem pai_nil (d : ℕ) (fmt : Bool) : print_array_items .nil d fmt = [] := by
  rw [print_array_items.eq_def]

@[simp] theorem pai_cons (c : JVal) (tl : JList) (d : ℕ) (fmt : Bool) :
    print_array_items (.cons c tl) d fmt
      = (44 :: (if fmt then [32] else [])) ++ print_value c (d + 1) fmt
          ++ print_array_items tl d fmt := by
  rw [print_array_items.eq_def]

@[simp] theorem po_nil (d : ℕ) (fmt : Bool) :
    print_object .nil d fmt
      = if fmt then (123 :: 10 :: tabs (d - 1)) ++ [125] else [123, 125] := by
  rw [print_object.eq_def]

@[simp] theorem po_cons (k : Bytes) (v : JVal) (tl : JMembers) (d : ℕ) (fmt : Bool) :
    print_object (.cons k v tl) d fmt
      = (123 :: (if fmt then [10] else []))
          ++ print_object_items (JMembers.cons k v tl) (d + 1) fmt
          ++ (if fmt then tabs d else []) ++ [125] := by
  rw [print_object.eq_def]

@[simp] theorem poi_nil (d : ℕ) (fmt : Bool) : print_object_items .nil d fmt = [] := by
  rw [print_object_items.eq_def]

@[simp] theorem poi_cons (k : Bytes) (v : JVal) (tl : JMembers) (d : ℕ) (fmt : Bool) :
    print_object_items (.cons k v tl) d fmt
      = (if fmt then tabs d else []) ++ print_string_ptr k ++ 58 :: (if fmt then [9] else [])
          ++ print_value v d fmt
          ++ (match tl with | .nil => [] | .cons _ _ _ => [44])
          ++ (if fmt then [10] else [])
          ++ print_object_items tl d fmt := by
  rw [print_object_items.eq_def]

/-! ## Number rendering on integer inputs -/

theorem natStr_one : natStr 1 = [49] := by
  rw [natStr, natStrAux.eq_def]
  norm_num

theorem natStr_two : natStr 2 = [50] := by
  rw [natStr, natStrAux.eq_def]
  norm_num

theorem print_number_intCase (i : ℤ) (hne : i ≠ 0) (hlo : -2147483648 ≤ i)
    (hhi : i ≤ 2147483647) : print_number ((i : ℚ)) i = intStr i := by
  unfold print_number
  rw [if_neg (by exact_mod_cast hne), if_pos ?_]
  refine ⟨by simp [DBL_EPSILON], ?_, ?_⟩
  · unfold INT_MAX
    exact_mod_cast hhi
  · unfold INT_MIN
    exact_mod_cast hlo

theorem print_number_zeroCase (vi : ℤ) (h : vi = 0) : print_number ((vi : ℚ)) vi = [48] := by
  subst h
  simp [print_number]

/-- C7 counterexample: in pretty mode a two-element array prints on a
single line (no newline anywhere in the output, elements separated by
comma-space), and an object member separates key from value with a colon
followed by a tab, never a colon followed by a space (no space byte occurs
at all). -/
theorem c7_counterexample :
    print_value (.arr (.cons (.num 1 1) (.cons (.num 2 2) .nil))) 0 true = [91, 49, 44, 32, 50, 93]
  ∧ (10 : ℕ) ∉ ([91, 49, 44, 32, 50, 93] : Bytes)
  ∧ print_value (.obj (.cons [97] .null .nil)) 0 true
      = [123, 10, 9, 34, 97, 34, 58, 9, 110, 117, 108, 108, 10, 125]
  ∧ (32 : ℕ) ∉ ([123, 10, 9, 34, 97, 34, 58, 9, 110, 117, 108, 108, 10, 125] : Bytes) := by
  have h1 : print_number 1 1 = [49] := by
    unfold print_number
    rw [if_neg (by norm_num), if_pos (by norm_num [DBL_EPSILON, INT_MAX, INT_MIN])]
    simp [intStr, natStr_one]
  have h2 : print_number 2 2 = [50] := by
    unfold print_number
    rw [if_neg (by norm_num), if_pos (by norm_num [DBL_EPSILON, INT_MAX, INT_MIN])]
    simp [intStr, natStr_two]
  refine ⟨?_, by decide, ?_, by decide⟩
  · simp [h1, h2, tabs]
  · simp [print_string_ptr, needsEscaping, tabs]

/-- Array items as a separator-joined list. -/
theorem arr_items_sepJoin : ∀ (tl : JList) (c : JVal) (d : ℕ),
    print_value c (d + 1) true ++ print_array_items tl d true
      = sepJoin [44, 32] ((JList.cons c tl).toList.map (fun v => print_value v (d + 1) true))
  | .nil, c, d => by simp [JList.toList, sepJoin]
  | .cons c2 tl, c, d => by
    have ih := arr_items_sepJoin tl c2 d
    simp only [JList.toList, List.map_cons, sepJoin, pai_cons, if_true] at *
    rw [← List.append_assoc, ← ih]
    simp

/-- Object member lines as a separator-joined list. -/
theorem obj_items_sepJoin : ∀ (tl : JMembers) (k : Bytes) (v : JVal) (d : ℕ),
    print_object_items (JMembers.cons k v tl) (d + 1) true
      = sepJoin [44, 10]
          ((JMembers.cons k v tl).toList.map (fun kv =>
            tabs (d + 1) ++ print_string_ptr kv.1 ++ 58 :: 9 :: print_value kv.2 (d + 1) true))
        ++ [10]
  | .nil, k, v, d => by simp [JMembers.toList, sepJoin]
  | .cons k2 v2 tl, k, v, d => by
    have ih := obj_items_sepJoin tl k2 v2 d
    simp only [JMembers.toList, List.map_cons, sepJoin, poi_cons, if_true] at *
    rw [ih]
    simp

/-- C7 amended: in pretty mode, arrays render on one line with
comma-space separators, while objects render one member per line, each
line indented with depth+1 tabs, the key separated from the value by a
colon and a tab, a comma after every member except the last, and the
closing brace indented with depth tabs. -/
theorem c7_pretty_format_amended :
    (∀ (l : JList) (d : ℕ), l.toList ≠ [] →
        print_array l d true
          = 91 :: sepJoin [44, 32] (l.toList.map (fun v => print_value v (d + 1) true)) ++ [93])
  ∧ (∀ (ms : JMembers) (d : ℕ), ms.toList ≠ [] →
        print_object ms d true
          = [123, 10]
            ++ sepJoin [44, 10]
                (ms.toList.map (fun kv =>
                  tabs (d + 1) ++ print_string_ptr kv.1 ++ 58 :: 9 :: print_value kv.2 (d + 1) true))
            ++ 10 :: tabs d ++ [125]) := by
  constructor
  · intro l d hne
    cases l with
    | nil => simp [JList.toList] at hne
    | cons c tl =>
      rw [pa_cons, arr_items_sepJoin]
  · intro ms d hne
    cases ms with
    | nil => simp [JMembers.toList] at hne
    | cons k v tl =>
      rw [po_cons, obj_items_sepJoin]
      simp

/-- C7 amended witness: the two concrete renderings of the counterexample
inputs match the amended formula. -/
theorem c7_pretty_format_amended_witness :
    print_array (.cons (.num 1 1) (.cons (.num 2 2) .nil)) 0 true
      = 91 :: sepJoin [44, 32]
          ((JList.cons (.num 1 1) (JList.cons (.num 2 2) JList.nil)).toList.map
            (fun v => print_value v 1 true)) ++ [93]
  ∧ print_object (.cons [97] .null .nil) 0 true
      = [123, 10]
        ++ sepJoin [44, 10]
            ((JMembers.cons [97] JVal.null JMembers.nil).toList.map (fun kv =>
              tabs 1 ++ print_string_ptr kv.1 ++ 58 :: 9 :: print_value kv.2 1 true))
        ++ 10 :: tabs 0 ++ [125] :=
  ⟨c7_pretty_format_amended.1 _ 0 (by simp [JList.toList]),
   c7_pretty_format_amended.2 _ 0 (by simp [JMembers.toList])⟩

end CJson

namespace CJson

/-! ## Unfolding equations for the buffered printers -/

@[simp] theorem pvb_null (d : ℕ) (fmt : Bool) (acc : Bytes) :
    print_value_buf .null d fmt acc = acc ++ [110, 117, 108, 108] := by
  rw [print_value_buf.eq_def]

@[simp] theorem pvb_false (d : ℕ) (fmt : Bool) (acc : Bytes) :
    print_value_buf .jfalse d fmt acc = acc ++ [102, 97, 108, 115, 101] := by
  rw [print_value_buf.eq_def]

@[simp] theorem pvb_true (d : ℕ) (fmt : Bool) (acc : Bytes) :
    print_value_buf .jtrue d fmt acc = acc ++ [116, 114, 117, 101] := by
  rw [print_value_buf.eq_def]

@[simp] theorem pvb_num (q : ℚ) (i : ℤ) (d : ℕ) (fmt : Bool) (acc : Bytes) :
    print_value_buf (.num q i) d fmt acc = acc ++ print_number q i := by
  rw [print_value_buf.eq_def]

@[simp] theorem pvb_str (s : Bytes) (d : ℕ) (fmt : Bool) (acc : Bytes) :
    print_value_buf (.str s) d fmt acc = acc ++ print_string_ptr s := by
  rw [print_value_buf.eq_def]

@[simp] theorem pvb_arr (l : JList) (d : ℕ) (fmt : Bool) (acc : Bytes) :
    print_value_buf (.arr l) d fmt acc = print_array_buf l d fmt acc := by
  rw [print_value_buf.eq_def]

@[simp] theorem pvb_obj (l : JMembers) (d : ℕ) (fmt : Bool) (acc : Bytes) :
    print_value_buf (.obj l) d fmt acc = print_object_buf l d fmt acc := by
  rw [print_value_buf.eq_def]

@[simp] theorem pab_nil (d : ℕ) (fmt : Bool) (acc : Bytes) :
    print_array_buf .nil d fmt acc = acc ++ [91, 93] := by
  rw [print_array_buf.eq_def]

@[simp] theorem pab_cons (c : JVal) (tl : JList) (d : ℕ) (fmt : Bool) (acc : Bytes) :
    print_array_buf (.cons c tl) d fmt acc
      = print_array_items_buf (JList.cons c tl) d fmt (acc ++ [91]) ++ [93] := by
  rw [print_array_buf.eq_def]

@[simp] theorem paib_cons (c : JVal) (tl : JList) (d : ℕ) (fmt : Bool) (acc : Bytes) :
    print_array_items_buf (.cons c tl) d fmt acc
      = print_array_items_buf tl d fmt
          (match tl with
           | .nil => print_value_buf c (d + 1) fmt acc
           | .cons _ _ => print_value_buf c (d + 1) fmt acc ++ 44 :: (if fmt then [32] else [])) := by
  rw [print_array_items_buf.eq_def]

@[simp] theorem paib_nil (d : ℕ) (fmt : Bool) (acc : Bytes) :
    print_array_items_buf .nil d fmt acc = acc := by
  rw [print_array_items_buf.eq_def]

@[simp] theorem pob_nil (d : ℕ) (fmt : Bool) (acc : Bytes) :
    print_object_buf .nil d fmt acc
      = acc ++ (if fmt then (123 :: 10 :: tabs (d - 1)) ++ [125] else [123, 125]) := by
  rw [print_object_buf.eq_def]

@[simp] theorem pob_cons (k : Bytes) (v : JVal) (tl : JMembers) (d : ℕ) (fmt : Bool) (acc : Bytes) :
    print_object_buf (.cons k v tl) d fmt acc
      = print_object_items_buf (JMembers.cons k v tl) (d + 1) fmt
            (acc ++ 123 :: (if fmt then [10] else []))
          ++ (if fmt then tabs d else []) ++ [125] := by
  rw [print_object_buf.eq_def]

@[simp] theorem poib_nil (d : ℕ) (fmt : Bool) (acc : Bytes) :
    print_object_items_buf .nil d fmt acc = acc := by
  rw [print_object_items_buf.eq_def]

@[simp] theorem poib_cons (k : Bytes) (v : JVal) (tl : JMembers) (d : ℕ) (fmt : Bool) (acc : Bytes) :
    print_object_items_buf (.cons k v tl) d fmt acc
      = print_object_items_buf tl d fmt
          (print_value_buf v d fmt
              (acc ++ (if fmt then tabs d else []) ++ print_string_ptr k
                ++ 58 :: (if fmt then [9] else []))
            ++ (match tl with | .nil => [] | .cons _ _ _ => [44])
            ++ (if fmt then [10] else [])) := by
  rw [print_object_items_buf.eq_def]

/-! ## The buffered printer is the unbuffered printer with an accumulator -/

mutual
theorem pvb_eq : ∀ (t : JVal) (d : ℕ) (fmt : Bool) (acc : Bytes),
    print_value_buf t d fmt acc = acc ++ print_value t d fmt
  | .null, d, fmt, acc => by simp
  | .jfalse, d, fmt, acc => by simp
  | .jtrue, d, fmt, acc => by simp
  | .num q i, d, fmt, acc => by simp
  | .str s, d, fmt, acc => by simp
  | .arr .nil, d, fmt, acc => by simp
  | .arr (.cons c tl), d, fmt, acc => by
    rw [pvb_arr, pab_cons, paib_eq c tl, pv_arr, pa_cons]
    simp
  | .obj .nil, d, fmt, acc => by simp
  | .obj (.cons k v tl), d, fmt, acc => by
    rw [pvb_obj, pob_cons, poib_eq k v tl, pv_obj, po_cons]
    simp
  termination_by t _ _ _ => sizeOf t
  decreasing_by
  all_goals simp_wf
  all_goals omega

theorem paib_eq : ∀ (c : JVal) (tl : JList) (d : ℕ) (fmt : Bool) (acc : Bytes),
    print_array_items_buf (JList.cons c tl) d fmt acc
      = acc ++ print_value c (d + 1) fmt ++ print_array_items tl d fmt
  | c, .nil, d, fmt, acc => by
    rw [paib_cons]
    simp [pvb_eq c]
  | c, .cons c2 tl2, d, fmt, acc => by
    rw [paib_cons]
    simp only
    rw [paib_eq c2 tl2, pvb_eq c, pai_cons]
    simp
  termination_by c tl _ _ _ => 1 + sizeOf c + sizeOf tl
  decreasing_by
  all_goals simp_wf
  all_goals omega

theorem poib_eq : ∀ (k : Bytes) (v : JVal) (tl : JMembers) (d : ℕ) (fmt : Bool) (acc : Bytes),
    print_object_items_buf (JMembers.cons k v tl) d fmt acc
      = acc ++ print_object_items (JMembers.cons k v tl) d fmt
  | k, v, .nil, d, fmt, acc => by
    rw [poib_cons, poib_nil, pvb_eq v, poi_cons, poi_nil]
    simp
  | k, v, .cons k2 v2 tl2, d, fmt, acc => by
    rw [poib_cons, poib_eq k2 v2 tl2, pvb_eq v, poi_cons]
    simp
  termination_by _ v tl _ _ _ => 1 + sizeOf v + sizeOf tl
  decreasing_by
  all_goals simp_wf
  all_goals omega
end

/-- C8: serializing through the growable-buffer path and through the
bottom-up string-allocation path produce byte-identical output, for every
tree, depth, and format flag (the buffer's prior content is a prefix the
buffered path only appends to). -/
theorem c8_buffered_equals_unbuffered :
    (∀ (t : JVal) (d : ℕ) (fmt : Bool) (acc : Bytes),
        print_value_buf t d fmt acc = acc ++ print_value t d fmt)
  ∧ (∀ t : JVal, cJSON_PrintBuffered t true = cJSON_Print t)
  ∧ (∀ t : JVal, cJSON_PrintBuffered t false = cJSON_PrintUnformatted t) := by
  refine ⟨pvb_eq, fun t => ?_, fun t => ?_⟩
  · rw [cJSON_PrintBuffered, cJSON_Print, pvb_eq]
    simp
  · rw [cJSON_PrintBuffered, cJSON_PrintUnformatted, pvb_eq]
    simp

end CJson

namespace CJson

/-! ## Parse boundary behaviour -/

theorem parse_value_nil (f : ℕ) : parse_value f [] = .error [] := by
  cases f with
  | zero => rw [parse_value.eq_def]
  | succ f =>
    rw [parse_value.eq_def]
    simp [leadsWith]

/-- C5: parsing the empty object and empty array succeeds with zero
children; empty or whitespace-only input fails with the error position at
the end of the input (at or past its start); with require_null_terminated
the object followed by garbage is rejected with the error at the first
non-space garbage byte, and without it parsing succeeds and stops
immediately after the closing brace (offset 2). -/
theorem c5_parse_boundaries (ws : Bytes) (hws : ∀ c ∈ ws, 0 < c ∧ c ≤ 32) :
    cJSON_Parse [123, 125] = .ok (.obj .nil, [])
  ∧ (JMembers.nil).toList.length = 0
  ∧ cJSON_Parse [91, 93] = .ok (.arr .nil, [])
  ∧ (JList.nil).toList.length = 0
  ∧ (∀ rnt, cJSON_ParseWithOpts ws rnt = .error [])
  ∧ cJSON_ParseWithOpts [123, 125, 32, 103, 97, 114, 98, 97, 103, 101] true
      = .error [103, 97, 114, 98, 97, 103, 101]
  ∧ cJSON_ParseWithOpts [123, 125, 32, 103, 97, 114, 98, 97, 103, 101] false
      = .ok (.obj .nil, ([123, 125, 32, 103, 97, 114, 98, 97, 103, 101] : Bytes).drop 2) := by
  refine ⟨?_, rfl, ?_, rfl, ?_, ?_, ?_⟩
  · rw [cJSON_Parse, cJSON_ParseWithOpts]
    norm_num [skip, parse_value.eq_def, parse_object.eq_def, leadsWith]
  · rw [cJSON_Parse, cJSON_ParseWithOpts]
    norm_num [skip, parse_value.eq_def, parse_array.eq_def, leadsWith]
  · intro rnt
    have hskip : skip ws = [] := by
      rw [skip, List.dropWhile_eq_nil_iff]
      intro c hc
      exact decide_eq_true (hws c hc).2
    rw [cJSON_ParseWithOpts, hskip, parse_value_nil]
  · rw [cJSON_ParseWithOpts]
    norm_num [skip, parse_value.eq_def, parse_object.eq_def, leadsWith]
  · rw [cJSON_ParseWithOpts]
    norm_num [skip, parse_value.eq_def, parse_object.eq_def, leadsWith]

/-- C5 witness: the whitespace-only hypothesis discharged on a concrete
space-and-tab input. -/
theorem c5_parse_boundaries_witness :
    cJSON_ParseWithOpts [32, 9, 10, 13, 32] true = .error []
      ∧ cJSON_ParseWithOpts [] false = .error [] :=
  ⟨((c5_parse_boundaries [32, 9, 10, 13, 32] (by decide)).2.2.2.2.1 true),
   ((c5_parse_boundaries [] (by decide)).2.2.2.2.1 false)⟩

end CJson

namespace CJson

/-! ## pow2gt: the bit-smearing computes the next power of two -/

theorem orShift_testBit (a k i : ℕ) :
    (a ||| a >>> k).testBit i = (a.testBit i || a.testBit (i + k)) := by
  rw [Nat.testBit_lor, Nat.testBit_shiftRight, Nat.add_comm k i]

theorem windowOr_double (y a w : ℕ)
    (ha : ∀ i, a.testBit i = true ↔ ∃ d, d < w ∧ y.testBit (i + d) = true) :
    ∀ i, (a ||| a >>> w).testBit i = true ↔ ∃ d, d < 2 * w ∧ y.testBit (i + d) = true := by
  intro i
  rw [orShift_testBit, Bool.or_eq_true]
  constructor
  · rintro (h1 | h2)
    · rcases (ha i).mp h1 with ⟨d, hd, hbit⟩
      exact ⟨d, by omega, hbit⟩
    · rcases (ha (i + w)).mp h2 with ⟨d, hd, hbit⟩
      refine ⟨w + d, by omega, ?_⟩
      rwa [← Nat.add_assoc]
  · rintro ⟨d, hd, hbit⟩
    rcases Nat.lt_or_ge d w with hlt | hge
    · exact Or.inl ((ha i).mpr ⟨d, hlt, hbit⟩)
    · refine Or.inr ((ha (i + w)).mpr ⟨d - w, by omega, ?_⟩)
      have he : i + w + (d - w) = i + d := by omega
      rwa [he]

theorem smear32_testBit (y : ℕ) :
    ∀ i, (((((y ||| y >>> 1) ||| (y ||| y >>> 1) >>> 2)
              ||| ((y ||| y >>> 1) ||| (y ||| y >>> 1) >>> 2) >>> 4)
            ||| (((y ||| y >>> 1) ||| (y ||| y >>> 1) >>> 2)
              ||| ((y ||| y >>> 1) ||| (y ||| y >>> 1) >>> 2) >>> 4) >>> 8)
          ||| ((((y ||| y >>> 1) ||| (y ||| y >>> 1) >>> 2)
              ||| ((y ||| y >>> 1) ||| (y ||| y >>> 1) >>> 2) >>> 4)
            ||| (((y ||| y >>> 1) ||| (y ||| y >>> 1) >>> 2)
              ||| ((y ||| y >>> 1) ||| (y ||| y >>> 1) >>> 2) >>> 4) >>> 8) >>> 16).testBit i
        = true ↔ ∃ d, d < 32 ∧ y.testBit (i + d) = true := by
  have h1 : ∀ i, y.testBit i = true ↔ ∃ d, d < 1 ∧ y.testBit (i + d) = true := by
    intro i
    constructor
    · intro h
      exact ⟨0, by omega, by simpa using h⟩
    · rintro ⟨d, hd, hbit⟩
      have : d = 0 := by omega
      subst this
      simpa using hbit
  have h2 := windowOr_double y y 1 h1
  have h4 := windowOr_double y _ 2 h2
  have h8 := windowOr_double y _ 4 h4
  have h16 := windowOr_double y _ 8 h8
  have h32 := windowOr_double y _ 16 h16
  intro i
  exact h32 i

theorem pow2gt_spec (x : ℕ) (h1 : 1 ≤ x) (h2 : x ≤ 2 ^ 31) :
    (∃ k, pow2gt x = 2 ^ k) ∧ x ≤ pow2gt x ∧ ∀ k, x ≤ 2 ^ k → pow2gt x ≤ 2 ^ k := by
  have hdef : pow2gt x
      = (((((x - 1 ||| (x - 1) >>> 1) ||| (x - 1 ||| (x - 1) >>> 1) >>> 2)
            ||| ((x - 1 ||| (x - 1) >>> 1) ||| (x - 1 ||| (x - 1) >>> 1) >>> 2) >>> 4)
          ||| (((x - 1 ||| (x - 1) >>> 1) ||| (x - 1 ||| (x - 1) >>> 1) >>> 2)
            ||| ((x - 1 ||| (x - 1) >>> 1) ||| (x - 1 ||| (x - 1) >>> 1) >>> 2) >>> 4) >>> 8)
        ||| ((((x - 1 ||| (x - 1) >>> 1) ||| (x - 1 ||| (x - 1) >>> 1) >>> 2)
            ||| ((x - 1 ||| (x - 1) >>> 1) ||| (x - 1 ||| (x - 1) >>> 1) >>> 2) >>> 4)
          ||| (((x - 1 ||| (x - 1) >>> 1) ||| (x - 1 ||| (x - 1) >>> 1) >>> 2)
            ||| ((x - 1 ||| (x - 1) >>> 1) ||| (x - 1 ||| (x - 1) >>> 1) >>> 2) >>> 4) >>> 8) >>> 16)
        + 1 := rfl
  have hbit := smear32_testBit (x - 1)
  by_cases hx1 : x = 1
  · subst hx1
    have hzero : ∀ i, Nat.testBit (1 - 1) i = false := by
      intro i
      simpa using Nat.zero_testBit i
    have hs : (((((1 - 1 : ℕ) ||| (1 - 1) >>> 1) ||| ((1 - 1) ||| (1 - 1) >>> 1) >>> 2)
            ||| (((1 - 1) ||| (1 - 1) >>> 1) ||| ((1 - 1) ||| (1 - 1) >>> 1) >>> 2) >>> 4)
          ||| ((((1 - 1) ||| (1 - 1) >>> 1) ||| ((1 - 1) ||| (1 - 1) >>> 1) >>> 2)
            ||| (((1 - 1) ||| (1 - 1) >>> 1) ||| ((1 - 1) ||| (1 - 1) >>> 1) >>> 2) >>> 4) >>> 8)
        ||| (((((1 - 1) ||| (1 - 1) >>> 1) ||| ((1 - 1) ||| (1 - 1) >>> 1) >>> 2)
            ||| (((1 - 1) ||| (1 - 1) >>> 1) ||| ((1 - 1) ||| (1 - 1) >>> 1) >>> 2) >>> 4)
          ||| ((((1 - 1) ||| (1 - 1) >>> 1) ||| ((1 - 1) ||| (1 - 1) >>> 1) >>> 2)
            ||| (((1 - 1) ||| (1 - 1) >>> 1) ||| ((1 - 1) ||| (1 - 1) >>> 1) >>> 2) >>> 4) >>> 8) >>> 16
        = 0 := by
      apply Nat.eq_of_testBit_eq
      intro i
      rw [Nat.zero_testBit]
      by_contra hcon
      have := (hbit i).mp (by simpa using hcon)
      rcases this with ⟨d, _, hd2⟩
      rw [hzero] at hd2
      exact Bool.false_ne_true hd2
    rw [hdef, hs]
    exact ⟨⟨0, rfl⟩, le_refl 1, fun k _ => Nat.one_le_two_pow⟩
  · have hy1 : 1 ≤ x - 1 := by omega
    have hyne : x - 1 ≠ 0 := by omega
    set L := Nat.log2 (x - 1) with hL
    have hlow : 2 ^ L ≤ x - 1 := Nat.log2_self_le hyne
    have hhigh : x - 1 < 2 ^ (L + 1) := Nat.lt_log2_self
    have hL30 : L ≤ 30 := by
      by_contra hcon
      have : 2 ^ 31 ≤ 2 ^ L := Nat.pow_le_pow_right (by omega) (by omega)
      omega
    have hs : (((((x - 1) ||| (x - 1) >>> 1) ||| ((x - 1) ||| (x - 1) >>> 1) >>> 2)
            ||| (((x - 1) ||| (x - 1) >>> 1) ||| ((x - 1) ||| (x - 1) >>> 1) >>> 2) >>> 4)
          ||| ((((x - 1) ||| (x - 1) >>> 1) ||| ((x - 1) ||| (x - 1) >>> 1) >>> 2)
            ||| (((x - 1) ||| (x - 1) >>> 1) ||| ((x - 1) ||| (x - 1) >>> 1) >>> 2) >>> 4) >>> 8)
        ||| (((((x - 1) ||| (x - 1) >>> 1) ||| ((x - 1) ||| (x - 1) >>> 1) >>> 2)
            ||| (((x - 1) ||| (x - 1) >>> 1) ||| ((x - 1) ||| (x - 1) >>> 1) >>> 2) >>> 4)
          ||| ((((x - 1) ||| (x - 1) >>> 1) ||| ((x - 1) ||| (x - 1) >>> 1) >>> 2)
            ||| (((x - 1) ||| (x - 1) >>> 1) ||| ((x - 1) ||| (x - 1) >>> 1) >>> 2) >>> 4) >>> 8) >>> 16
        = 2 ^ (L + 1) - 1 := by
      apply Nat.eq_of_testBit_eq
      intro i
      rw [Nat.testBit_two_pow_sub_one]
      by_cases hlt : i < L + 1
      · rw [decide_eq_true hlt]
        apply (hbit i).mpr
        refine ⟨L - i, by omega, ?_⟩
        have he : i + (L - i) = L := by omega
        rw [he, Nat.testBit_to_div_mod]
        have hq1 : 1 ≤ (x - 1) / 2 ^ L :=
          (Nat.one_le_div_iff (Nat.pos_pow_of_pos L (by omega))).mpr hlow
        have hq2 : (x - 1) / 2 ^ L < 2 := by
          rw [Nat.div_lt_iff_lt_mul (Nat.pos_pow_of_pos L (by omega))]
          calc x - 1 < 2 ^ (L + 1) := hhigh
          _ = 2 ^ L * 2 := by rw [Nat.pow_succ]
          _ ≤ 2 * 2 ^ L := by omega
        have hqe : (x - 1) / 2 ^ L = 1 := by omega
        rw [hqe]
        decide
      · rw [decide_eq_false hlt]
        by_contra hcon
        rw [Bool.not_eq_false] at hcon
        obtain ⟨d, hd, hd2⟩ := (hbit i).mp hcon
        have hbig : x - 1 < 2 ^ (i + d) :=
          lt_of_lt_of_le hhigh (Nat.pow_le_pow_right (by omega) (by omega))
        rw [Nat.testBit_lt_two_pow hbig] at hd2
        exact Bool.false_ne_true hd2
    rw [hdef, hs]
    have hsub : 2 ^ (L + 1) - 1 + 1 = 2 ^ (L + 1) := by
      have : 1 ≤ 2 ^ (L + 1) := Nat.one_le_two_pow
      omega
    rw [hsub]
    refine ⟨⟨L + 1, rfl⟩, by omega, ?_⟩
    intro k hk
    have hLk : L < k := by
      by_contra hcon
      have : 2 ^ k ≤ 2 ^ L := Nat.pow_le_pow_right (by omega) (by omega)
      omega
    exact Nat.pow_le_pow_right (by omega) (by omega)

end CJson

namespace CJson

/-- C6: ensure either returns the write offset with at least the needed
free bytes past it (growing, when the capacity is short, to exactly the
smallest power of two at least offset+needed, and preserving the
already-written prefix), or reports failure leaving the storage and
capacity cleared; it never reports success with fewer than the needed
bytes free. -/
theorem c6_ensure_guarantees (p : printbuffer) (needed : ℕ) (allocOk : Bool)
    (hwf : WFpb p) (hbound : needed + p.offset ≤ 2 ^ 31) :
    (∀ off, (ensure p needed allocOk).2 = some off →
        off = p.offset
      ∧ (ensure p needed allocOk).1.offset = p.offset
      ∧ (ensure p needed allocOk).1.offset + needed ≤ (ensure p needed allocOk).1.length
      ∧ WFpb (ensure p needed allocOk).1
      ∧ (∀ b b2, p.buffer = some b → (ensure p needed allocOk).1.buffer = some b2 →
            b2.take p.offset = b.take p.offset)
      ∧ (needed + p.offset ≤ p.length → (ensure p needed allocOk).1 = p)
      ∧ (p.length < needed + p.offset →
            (∃ k, (ensure p needed allocOk).1.length = 2 ^ k)
          ∧ needed + p.offset ≤ (ensure p needed allocOk).1.length
          ∧ (∀ k, needed + p.offset ≤ 2 ^ k → (ensure p needed allocOk).1.length ≤ 2 ^ k)))
  ∧ ((ensure p needed allocOk).2 = none →
        (ensure p needed allocOk).1.buffer = none ∧ (ensure p needed allocOk).1.length = 0) := by
  obtain ⟨hwf1, hwf2, hwf3⟩ := hwf
  rcases hbuf : p.buffer with _ | buf
  · have he : ensure p needed allocOk = (p, none) := by
      rw [ensure, hbuf]
    rw [he]
    refine ⟨?_, ?_⟩
    · intro off hoff
      simp at hoff
    · intro _
      exact ⟨hbuf, hwf3 hbuf⟩
  · by_cases hfit : needed + p.offset ≤ p.length
    · have he : ensure p needed allocOk = (p, some p.offset) := by
        rw [ensure, hbuf]
        simp [hfit]
      rw [he]
      refine ⟨?_, ?_⟩
      · intro off hoff
        simp only [Option.some.injEq] at hoff
        subst hoff
        refine ⟨rfl, rfl, by simp only; omega, ⟨hwf1, hwf2, hwf3⟩, ?_, fun _ => rfl, ?_⟩
        · intro b b2 hb hb2
          cases hb
          rw [hbuf] at hb2
          cases hb2
          rfl
        · intro hcon
          omega
      · intro hcon
        simp at hcon
    · have hp2 := pow2gt_spec (needed + p.offset) (by omega) hbound
      cases allocOk with
      | false =>
        have he : ensure p needed false
            = ({ buffer := none, length := 0, offset := p.offset }, none) := by
          rw [ensure, hbuf]
          simp [hfit]
        rw [he]
        refine ⟨?_, fun _ => ⟨rfl, rfl⟩⟩
        intro off hoff
        simp at hoff
      | true =>
        have he : ensure p needed true
            = ({ buffer := some (buf.take p.length
                    ++ List.replicate (pow2gt (needed + p.offset) - p.length) 0),
                 length := pow2gt (needed + p.offset), offset := p.offset }, some p.offset) := by
          rw [ensure, hbuf]
          simp [hfit]
        rw [he]
        have hblen : buf.length = p.length := hwf1 buf hbuf
        have hgrow : p.length ≤ pow2gt (needed + p.offset) := by
          have := hp2.2.1
          omega
        refine ⟨?_, ?_⟩
        · intro off hoff
          simp only [Option.some.injEq] at hoff
          subst hoff
          refine ⟨rfl, rfl, ?_, ⟨?_, ?_, ?_⟩, ?_, ?_, ?_⟩
          · have := hp2.2.1
            simp only
            omega
          · intro b hb
            simp only [Option.some.injEq] at hb
            subst hb
            simp [List.length_take, hblen]
            omega
          · simp only
            omega
          · intro hcon
            simp at hcon
          · intro b b2 hb hb2
            cases hb
            simp only [Option.some.injEq] at hb2
            subst hb2
            rw [List.take_append_of_le_length, List.take_take]
            · congr 1
              omega
            · simp [List.length_take, hblen]
              omega
          · intro hcon
            omega
          · intro _
            refine ⟨?_, ?_, ?_⟩
            · obtain ⟨k, hk⟩ := hp2.1
              exact ⟨k, by simpa using hk⟩
            · simpa using hp2.2.1
            · intro k hk
              simpa using hp2.2.2 k hk
        · intro hcon
          simp at hcon

/-- C6 witness: a concrete buffer of capacity 4 with 3 bytes used, asked
for 3 more bytes, grows to capacity 8 (the smallest power of two at least
6) with the written prefix intact. -/
theorem c6_ensure_guarantees_witness :
    (ensure { buffer := some [65, 66, 67, 0], length := 4, offset := 3 } 3 true).1.length = 8
      ∧ (ensure { buffer := some [65, 66, 67, 0], length := 4, offset := 3 } 3 true).2 = some 3 := by
  have h := c6_ensure_guarantees { buffer := some [65, 66, 67, 0], length := 4, offset := 3 } 3 true
    (by refine ⟨?_, ?_, ?_⟩ <;> simp [WFpb]) (by norm_num)
  have he : ensure { buffer := some [65, 66, 67, 0], length := 4, offset := 3 } 3 true
      = ({ buffer := some ([65, 66, 67, 0].take 4 ++ List.replicate (pow2gt 6 - 4) 0),
           length := pow2gt 6, offset := 3 }, some 3) := by
    rw [ensure]
    norm_num
  obtain ⟨h1, -, -, -, -, -, h7⟩ := h.1 3 (by rw [he])
  have hp8 : pow2gt 6 = 8 := by
    have hs := pow2gt_spec 6 (by norm_num) (by norm_num)
    have hle : pow2gt 6 ≤ 8 := hs.2.2 3 (by norm_num)
    have hge : 6 ≤ pow2gt 6 := hs.2.1
    obtain ⟨k, hk⟩ := hs.1
    have hk3 : k = 3 := by
      by_contra hcon
      rcases Nat.lt_or_ge k 3 with hlt | hge2
      · have hb1 : 2 ^ k ≤ 2 ^ 2 := Nat.pow_le_pow_right (by omega) (by omega)
        norm_num at hb1
        omega
      · have hge4 : 4 ≤ k := by omega
        have hb2 : 2 ^ 4 ≤ 2 ^ k := Nat.pow_le_pow_right (by omega) hge4
        norm_num at hb2
        omega
    rw [hk, hk3]
    norm_num
  constructor
  · rw [he]
    exact hp8
  · rw [he]

end CJson

namespace CJson

/-! ## Whitespace-skipping and dispatch lemmas -/

theorem skip_nil : skip [] = [] := rfl

theorem skip_gt (c : ℕ) (h : 32 < c) (r : Bytes) : skip (c :: r) = c :: r := by
  simp [skip, List.dropWhile_cons, Nat.not_le.mpr h]

theorem skip_le32 (c : ℕ) (h : c ≤ 32) (r : Bytes) : skip (c :: r) = skip r := by
  simp [skip, List.dropWhile_cons, h]

theorem skip_append_le (ws : Bytes) (h : ∀ c ∈ ws, c ≤ 32) (s : Bytes) :
    skip (ws ++ s) = skip s := by
  induction ws with
  | nil => simp
  | cons c ws ih =>
    rw [List.cons_append, skip_le32 c (h c (by simp))]
    exact ih (fun d hd => h d (by simp [hd]))

theorem skip_skip (s : Bytes) : skip (skip s) = skip s := by
  induction s with
  | nil => rfl
  | cons c s ih =>
    by_cases h : c ≤ 32
    · rw [skip_le32 c h, ih]
    · rw [skip_gt c (by omega), skip_gt c (by omega)]

theorem tabs_le32 (n : ℕ) : ∀ c ∈ tabs n, c ≤ 32 := by
  intro c hc
  rw [tabs] at hc
  have := List.eq_of_mem_replicate hc
  omega

theorem leadsWith_ne_head (a b : ℕ) (as bs : Bytes) (h : b ≠ a) :
    leadsWith (a :: as) (b :: bs) = false := by
  simp [leadsWith]
  intro hcon
  exact absurd hcon.symm h

theorem leadsWith_same (lit s : Bytes) : leadsWith lit (lit ++ s) = true := by
  induction lit with
  | nil => rfl
  | cons a as ih => simp [leadsWith, ih]

/-! ## First bytes of printed values -/

theorem natStrAux_head (n : ℕ) : ∀ acc, ∃ c r, natStrAux n acc = c :: r ∧ 48 ≤ c ∧ c ≤ 57
      ∧ (1 ≤ n → 49 ≤ c) := by
  induction n using Nat.strong_induction_on with
  | _ n ih =>
    intro acc
    rw [natStrAux.eq_def]
    by_cases h10 : n < 10
    · refine ⟨48 + n, acc, by simp [h10], by omega, by omega, by omega⟩
    · have hd := ih (n / 10) (Nat.div_lt_self (by omega) (by omega)) ((48 + n % 10) :: acc)
      obtain ⟨c, r, he, h1, h2, h3⟩ := hd
      refine ⟨c, r, by simp [h10, he], h1, h2, fun _ => h3 (by omega)⟩

theorem print_string_ptr_decomp (s : Bytes) :
    print_string_ptr s
      = 34 :: ((if needsEscaping s then s.flatMap escapeChar else s) ++ [34]) := by
  unfold print_string_ptr
  split <;> simp

theorem natStrAux_append (n : ℕ) : ∀ acc, natStrAux n acc = natStrAux n [] ++ acc := by
  induction n using Nat.strong_induction_on with
  | _ n ih =>
    intro acc
    by_cases h10 : n < 10
    · conv_lhs => rw [natStrAux.eq_def]
      conv_rhs => rw [natStrAux.eq_def]
      simp [h10]
    · conv_lhs => rw [natStrAux.eq_def]
      conv_rhs => rw [natStrAux.eq_def]
      simp only [if_neg h10]
      rw [ih (n / 10) (Nat.div_lt_self (by omega) (by omega)) ((48 + n % 10) :: acc),
          ih (n / 10) (Nat.div_lt_self (by omega) (by omega)) [48 + n % 10],
          List.append_assoc, List.singleton_append]

theorem natStr_decomp (n : ℕ) (h : ¬ n < 10) :
    natStr n = natStr (n / 10) ++ [48 + n % 10] := by
  unfold natStr
  conv_lhs => rw [natStrAux.eq_def]
  simp only [if_neg h]
  rw [natStrAux_append]

theorem pn_digits_natStr (n : ℕ) : ∀ (q : ℚ) (rest : Bytes),
    pn_digits (natStr n ++ rest) q = pn_digits rest (q * 10 ^ numDigits n + n) := by
  induction n using Nat.strong_induction_on with
  | _ n ih =>
    intro q rest
    by_cases h10 : n < 10
    · have e1 : natStr n = [48 + n] := by
        unfold natStr
        rw [natStrAux.eq_def]
        simp only [if_pos h10]
      have e2 : numDigits n = 1 := by rw [numDigits.eq_def, if_pos h10]
      rw [e1, List.singleton_append, e2]
      simp only [pn_digits]
      rw [if_pos (by omega : 48 ≤ 48 + n ∧ 48 + n ≤ 57)]
      congr 1
      have h48 : (48 + n - 48 : ℕ) = n := by omega
      rw [h48]
      ring
    · have e2 : numDigits n = numDigits (n / 10) + 1 := by
        rw [numDigits.eq_def, if_neg h10]
      rw [natStr_decomp n h10, List.append_assoc, List.singleton_append,
          ih (n / 10) (Nat.div_lt_self (by omega) (by omega)) q ((48 + n % 10) :: rest), e2]
      simp only [pn_digits]
      rw [if_pos (by omega : 48 ≤ 48 + n % 10 ∧ 48 + n % 10 ≤ 57)]
      congr 1
      have h48 : (48 + n % 10 - 48 : ℕ) = n % 10 := by omega
      rw [h48]
      have hdm : ((n / 10 : ℕ) : ℚ) * 10 + ((n % 10 : ℕ) : ℚ) = (n : ℚ) := by
        have h9 : n / 10 * 10 + n % 10 = n := by omega
        exact_mod_cast congrArg (fun m : ℕ => (m : ℚ)) h9
      have hr : (q * 10 ^ numDigits (n / 10) + ((n / 10 : ℕ) : ℚ)) * 10 + ((n % 10 : ℕ) : ℚ)
          = q * (10 ^ numDigits (n / 10) * 10) + (((n / 10 : ℕ) : ℚ) * 10 + ((n % 10 : ℕ) : ℚ)) := by
        ring
      rw [hr, hdm, pow_succ]

theorem pn_digits_Bnd (rest : Bytes) (q : ℚ) (hb : Bnd rest) : pn_digits rest q = (q, rest) := by
  cases rest with
  | nil => simp [pn_digits]
  | cons c r =>
    simp only [Bnd] at hb
    simp only [pn_digits]
    rw [if_neg (by omega)]

theorem truncQ_intCast (i : ℤ) : truncQ (i : ℚ) = i := by
  unfold truncQ
  split
  · rw [show -((i : ℚ)) = ((-i : ℤ) : ℚ) by push_cast; ring, Int.floor_intCast]
    ring
  · rw [Int.floor_intCast]


theorem truncQ_natCast (n : ℕ) : truncQ ((n : ℕ) : ℚ) = (n : ℤ) := by
  have h := truncQ_intCast ((n : ℕ) : ℤ)
  push_cast at h
  exact_mod_cast h

theorem truncQ_negNatCast (n : ℕ) : truncQ (-((n : ℕ) : ℚ)) = -(n : ℤ) := by
  have h := truncQ_intCast (-((n : ℕ) : ℤ))
  push_cast at h
  exact_mod_cast h

theorem parse_number_natStr (n : ℕ) (rest : Bytes) (hb : Bnd rest) :
    parse_number (natStr n ++ rest) = ((((n : ℕ) : ℚ), ((n : ℕ) : ℤ)), rest) := by
  by_cases hn : n = 0
  · subst hn
    have e0 : natStr 0 = [48] := by
      unfold natStr
      rw [natStrAux.eq_def]
      norm_num
    rw [e0, List.singleton_append]
    rcases rest with _ | ⟨b, rs⟩
    · norm_num [parse_number, truncQ]
    · simp only [Bnd] at hb
      rcases hb with rfl | rfl | rfl | rfl <;> norm_num [parse_number, truncQ]
  · obtain ⟨c, r, he, h48, h57, h49⟩ := natStrAux_head n []
    have h49' := h49 (by omega)
    have hsplit : natStr n ++ rest = c :: (r ++ rest) := by
      unfold natStr
      rw [he, List.cons_append]
    have hpd : pn_digits (c :: (r ++ rest)) 0 = (((n : ℕ) : ℚ), rest) := by
      rw [← List.cons_append, ← he]
      show pn_digits (natStrAux n [] ++ rest) 0 = _
      rw [show natStrAux n [] = natStr n from rfl, pn_digits_natStr n 0 rest,
          pn_digits_Bnd rest _ hb]
      norm_num
    rw [hsplit]
    rcases rest with _ | ⟨b, rs⟩
    · simp only [List.append_nil] at hpd
      interval_cases c <;> norm_num [parse_number, hpd, truncQ_natCast]
    · simp only [Bnd] at hb
      rcases hb with rfl | rfl | rfl | rfl <;> interval_cases c <;>
        norm_num [parse_number, hpd, truncQ_natCast]

theorem parse_number_negStr (n : ℕ) (hn : 1 ≤ n) (rest : Bytes) (hb : Bnd rest) :
    parse_number ((45 :: natStr n) ++ rest) = ((-((n : ℕ) : ℚ), -((n : ℕ) : ℤ)), rest) := by
  rw [List.cons_append]
  obtain ⟨c, r, he, h48, h57, h49⟩ := natStrAux_head n []
  have h49' := h49 hn
  have hsplit : natStr n ++ rest = c :: (r ++ rest) := by
    unfold natStr
    rw [he, List.cons_append]
  have hpd : pn_digits (c :: (r ++ rest)) 0 = (((n : ℕ) : ℚ), rest) := by
    rw [← List.cons_append, ← he]
    show pn_digits (natStrAux n [] ++ rest) 0 = _
    rw [show natStrAux n [] = natStr n from rfl, pn_digits_natStr n 0 rest,
        pn_digits_Bnd rest _ hb]
    norm_num
  rw [hsplit]
  rcases rest with _ | ⟨b, rs⟩
  · simp only [List.append_nil] at hpd
    interval_cases c <;> norm_num [parse_number, hpd, truncQ_negNatCast]
  · simp only [Bnd] at hb
    rcases hb with rfl | rfl | rfl | rfl <;> interval_cases c <;>
      norm_num [parse_number, hpd, truncQ_negNatCast]

theorem parse_number_intStr (i : ℤ) (rest : Bytes) (hb : Bnd rest) :
    parse_number (intStr i ++ rest) = (((i : ℚ), i), rest) := by
  unfold intStr
  by_cases hi : i < 0
  · rw [if_pos hi, parse_number_negStr (-i).toNat (by omega) rest hb]
    have e : (((-i).toNat : ℕ) : ℤ) = -i := Int.toNat_of_nonneg (by omega)
    have e2 : (((-i).toNat : ℕ) : ℚ) = -(i : ℚ) := by
      have := congrArg (fun k : ℤ => (k : ℚ)) e
      push_cast at this
      exact_mod_cast this
    rw [e, e2]
    norm_num
  · rw [if_neg hi, parse_number_natStr i.toNat rest hb]
    have e : ((i.toNat : ℕ) : ℤ) = i := Int.toNat_of_nonneg (by omega)
    have e2 : ((i.toNat : ℕ) : ℚ) = (i : ℚ) := by
      exact_mod_cast congrArg (fun k : ℤ => (k : ℚ)) e
    rw [e, e2]

theorem print_number_int (i : ℤ) (h1 : -2147483648 ≤ i) (h2 : i ≤ 2147483647) :
    print_number ((i : ℤ) : ℚ) i = intStr i := by
  by_cases h0 : ((i : ℤ) : ℚ) = 0
  · have hz : i = 0 := by exact_mod_cast h0
    subst hz
    rw [print_number, if_pos h0]
    unfold intStr
    rw [if_neg (by norm_num)]
    show _ = natStr (0 : ℤ).toNat
    unfold natStr
    rw [natStrAux.eq_def]
    norm_num
  · have hc : |((i : ℚ)) - ((i : ℤ) : ℚ)| ≤ DBL_EPSILON ∧ ((i : ℤ) : ℚ) ≤ INT_MAX
        ∧ INT_MIN ≤ ((i : ℤ) : ℚ) := by
      refine ⟨by norm_num [DBL_EPSILON], ?_, ?_⟩
      · unfold INT_MAX
        exact_mod_cast h2
      · unfold INT_MIN
        exact_mod_cast h1
    rw [print_number, if_neg h0, if_pos hc]

theorem print_number_head (d : ℚ) (vi : ℤ) :
    ∃ c r, print_number d vi = c :: r ∧ (c = 45 ∨ (48 ≤ c ∧ c ≤ 57)) := by
  have hnat : ∀ n : ℕ, ∃ c r, natStr n = c :: r ∧ (c = 45 ∨ (48 ≤ c ∧ c ≤ 57)) := by
    intro n
    obtain ⟨c, r, he, h1, h2, _⟩ := natStrAux_head n []
    exact ⟨c, r, he, Or.inr ⟨h1, h2⟩⟩
  have hcons : ∀ (n : ℕ) (X : Bytes),
      ∃ c r, natStr n ++ X = c :: r ∧ (c = 45 ∨ (48 ≤ c ∧ c ≤ 57)) := by
    intro n X
    obtain ⟨c, r, he, hc⟩ := hnat n
    exact ⟨c, r ++ X, by simp [he], hc⟩
  have hint : ∀ i : ℤ, ∃ c r, intStr i = c :: r ∧ (c = 45 ∨ (48 ≤ c ∧ c ≤ 57)) := by
    intro i
    unfold intStr
    split
    · exact ⟨45, _, rfl, Or.inl rfl⟩
    · exact hnat _
  have hfix : ∀ q : ℚ, ∃ c r, fixed6 q = c :: r ∧ (c = 45 ∨ (48 ≤ c ∧ c ≤ 57)) := by
    intro q
    simp only [fixed6]
    exact hcons _ _
  have hexp : d ≠ 0 → ∃ c r, fmtExp d = c :: r ∧ (c = 45 ∨ (48 ≤ c ∧ c ≤ 57)) := by
    intro h0
    unfold fmtExp
    rw [if_neg h0]
    by_cases hneg : d < 0
    · simp only [if_pos hneg, List.singleton_append]
      exact ⟨45, _, rfl, Or.inl rfl⟩
    · simp only [if_neg hneg, List.nil_append, List.append_assoc]
      exact hcons _ _
  by_cases h0 : d = 0
  · rw [print_number, if_pos h0]
    exact ⟨48, [], rfl, Or.inr (by omega)⟩
  rw [print_number, if_neg h0]
  by_cases h1 : |((vi : ℚ)) - d| ≤ DBL_EPSILON ∧ d ≤ INT_MAX ∧ INT_MIN ≤ d
  · rw [if_pos h1]
    exact hint vi
  rw [if_neg h1]
  by_cases h2 : |((⌊d⌋ : ℤ) : ℚ) - d| ≤ DBL_EPSILON ∧ |d| < 10 ^ 60
  · rw [if_pos h2]
    exact hint _
  rw [if_neg h2]
  by_cases h3 : |d| < 1 / 1000000 ∨ 1000000000 < |d|
  · rw [if_pos h3]
    exact hexp h0
  · rw [if_neg h3]
    unfold fmtFixed
    by_cases hneg : d < 0
    · rw [if_pos hneg]
      exact ⟨45, _, rfl, Or.inl rfl⟩
    · rw [if_neg hneg]
      exact hfix _

theorem print_head (t : JVal) (d : ℕ) (fmt : Bool) :
    ∃ c r, print_value t d fmt = c :: r ∧ 32 < c ∧ c ≠ 93 ∧ c ≠ 125 := by
  cases t with
  | null => exact ⟨110, [117, 108, 108], by simp, by omega, by omega, by omega⟩
  | jfalse => exact ⟨102, [97, 108, 115, 101], by simp, by omega, by omega, by omega⟩
  | jtrue => exact ⟨116, [114, 117, 101], by simp, by omega, by omega, by omega⟩
  | num q i =>
    obtain ⟨c, r, he, hc⟩ := print_number_head q i
    exact ⟨c, r, by simp [he], by omega, by omega, by omega⟩
  | str s =>
    exact ⟨34, (if needsEscaping s then s.flatMap escapeChar else s) ++ [34],
      by rw [pv_str, print_string_ptr_decomp], by omega, by omega, by omega⟩
  | arr l =>
    cases l with
    | nil => exact ⟨91, [93], by simp, by omega, by omega, by omega⟩
    | cons c tl =>
      exact ⟨91, (print_value c (d + 1) fmt ++ print_array_items tl d fmt) ++ [93],
        by simp, by omega, by omega, by omega⟩
  | obj l =>
    cases l with
    | nil =>
      by_cases hf : fmt
      · exact ⟨123, (10 :: tabs (d - 1)) ++ [125], by simp [hf], by omega, by omega, by omega⟩
      · exact ⟨123, [125], by simp [hf], by omega, by omega, by omega⟩
    | cons k v tl =>
      exact ⟨123, (if fmt then [10] else [])
          ++ (print_object_items (JMembers.cons k v tl) (d + 1) fmt
            ++ ((if fmt then tabs d else []) ++ [125])),
        by simp, by omega, by omega, by omega⟩

end CJson

namespace CJson

/-! ## Round-trip helper lemmas -/

theorem objSep_nil : objSep .nil = [] := rfl

theorem objSep_cons (k : Bytes) (v : JVal) (tl : JMembers) :
    objSep (.cons k v tl) = [44] := rfl

theorem poi_cons2 (k : Bytes) (v : JVal) (tl : JMembers) (d : ℕ) (fmt : Bool) :
    print_object_items (.cons k v tl) d fmt
      = (if fmt then tabs d else []) ++ (print_string_ptr k ++ (58 :: ((if fmt then [9] else [])
          ++ (print_value v d fmt ++ (objSep tl ++ ((if fmt then [10] else [])
          ++ print_object_items tl d fmt)))))) := by
  rw [poi_cons]
  cases tl <;> simp [objSep]

theorem Bnd_pai (tl : JList) (d : ℕ) (fmt : Bool) (rest : Bytes) :
    Bnd (print_array_items tl d fmt ++ 93 :: rest) := by
  cases tl <;> simp [Bnd]

theorem Bnd_objAfter (tl : JMembers) (d : ℕ) (fmt : Bool) (rest : Bytes) :
    Bnd (objSep tl ++ ((if fmt then [10] else [])
      ++ (print_object_items tl (d + 1) fmt ++ ((if fmt then tabs d else []) ++ 125 :: rest)))) := by
  cases tl <;> cases fmt <;> simp [objSep, Bnd]

theorem skip_pv (c : JVal) (d : ℕ) (fmt : Bool) (X : Bytes) :
    skip (print_value c d fmt ++ X) = print_value c d fmt ++ X := by
  obtain ⟨hc, rc, hec, hgt, _, _⟩ := print_head c d fmt
  rw [hec, List.cons_append, skip_gt hc hgt]

theorem skip_pai (tl : JList) (d : ℕ) (fmt : Bool) (rest : Bytes) :
    skip (print_array_items tl d fmt ++ 93 :: rest)
      = print_array_items tl d fmt ++ 93 :: rest := by
  cases tl with
  | nil =>
    rw [pai_nil, List.nil_append, skip_gt 93 (by omega)]
  | cons c tl2 =>
    rw [pai_cons]
    simp only [List.cons_append, List.append_assoc]
    rw [skip_gt 44 (by omega)]

theorem skip_psp (k : Bytes) (X : Bytes) :
    skip (print_string_ptr k ++ X) = print_string_ptr k ++ X := by
  rw [print_string_ptr_decomp, List.cons_append, skip_gt 34 (by omega)]

theorem skip_ifws (fmt : Bool) (w : ℕ) (hw : w ≤ 32) (X : Bytes) :
    skip ((if fmt then [w] else []) ++ X) = skip X := by
  cases fmt
  · simp
  · simp only [if_pos rfl, List.singleton_append]
    exact skip_le32 w hw X

theorem skip_iftabs (fmt : Bool) (d : ℕ) (X : Bytes) :
    skip ((if fmt then tabs d else []) ++ X) = skip X := by
  cases fmt
  · simp
  · simp only [if_pos rfl]
    exact skip_append_le (tabs d) (tabs_le32 d) X

/-! ## Fuel bounds: twice the printed length suffices -/

theorem psp_len (k : Bytes) : 2 ≤ (print_string_ptr k).length := by
  rw [print_string_ptr_decomp]
  simp

theorem pn_len (q : ℚ) (i : ℤ) : 1 ≤ (print_number q i).length := by
  obtain ⟨c, r, he, _⟩ := print_number_head q i
  rw [he]
  simp

mutual
theorem nfB_value : ∀ (t : JVal) (d : ℕ) (fmt : Bool),
    nfV t ≤ 2 * (print_value t d fmt).length
  | .null, d, fmt => by simp [nfV]
  | .jfalse, d, fmt => by simp [nfV]
  | .jtrue, d, fmt => by simp [nfV]
  | .num q i, d, fmt => by
    have := pn_len q i
    simp only [nfV, pv_num]
    omega
  | .str s, d, fmt => by
    have := psp_len s
    simp only [nfV, pv_str]
    omega
  | .arr .nil, d, fmt => by simp [nfV]
  | .arr (.cons c tl), d, fmt => by
    have h1 := nfB_value c (d + 1) fmt
    have h2 := nfB_arr tl d fmt
    simp only [nfV, pv_arr, pa_cons]
    simp only [List.length_append, List.length_cons]
    omega
  | .obj .nil, d, fmt => by
    cases fmt <;> simp [nfV]
  | .obj (.cons k v tl), d, fmt => by
    have h1 := nfB_value v (d + 1) fmt
    have h2 := nfB_obj tl (d + 1) fmt
    have h3 := psp_len k
    simp only [nfV, pv_obj, po_cons, poi_cons2]
    simp only [List.length_append, List.length_cons]
    omega
  termination_by t _ _ => sizeOf t
  decreasing_by
  all_goals simp_wf
  all_goals omega

theorem nfB_arr : ∀ (tl : JList) (d : ℕ) (fmt : Bool),
    nfLA tl ≤ 2 * (print_array_items tl d fmt).length + 2
  | .nil, d, fmt => by simp [nfLA]
  | .cons c tl2, d, fmt => by
    have h1 := nfB_value c (d + 1) fmt
    have h2 := nfB_arr tl2 d fmt
    simp only [nfLA, pai_cons]
    simp only [List.length_append, List.length_cons]
    omega
  termination_by tl _ _ => sizeOf tl
  decreasing_by
  all_goals simp_wf
  all_goals omega

theorem nfB_obj : ∀ (tl : JMembers) (d : ℕ) (fmt : Bool),
    nfLO tl ≤ 2 * (print_object_items tl d fmt).length + 2
  | .nil, d, fmt => by simp [nfLO]
  | .cons k v tl2, d, fmt => by
    have h1 := nfB_value v d fmt
    have h2 := nfB_obj tl2 d fmt
    have h3 := psp_len k
    simp only [nfLO, poi_cons2]
    simp only [List.length_append, List.length_cons]
    omega
  termination_by tl _ _ => sizeOf tl
  decreasing_by
  all_goals simp_wf
  all_goals omega
end

end CJson

namespace CJson

/-! ## The round trip: parsing a rendering recovers the tree -/

mutual
theorem rt_value : ∀ (t : JVal) (d : ℕ) (fmt : Bool) (f : ℕ) (rest : Bytes),
    goodV t → nfV t ≤ f → Bnd rest →
    parse_value f (print_value t d fmt ++ rest) = .ok (t, rest)
  | .null, d, fmt, f, rest, hg, hf, hb => by
    obtain ⟨f1, rfl⟩ : ∃ f1, f = f1 + 1 := ⟨f - 1, by simp only [nfV] at hf; omega⟩
    rw [pv_null]
    simp [parse_value, leadsWith]
  | .jfalse, d, fmt, f, rest, hg, hf, hb => by
    obtain ⟨f1, rfl⟩ : ∃ f1, f = f1 + 1 := ⟨f - 1, by simp only [nfV] at hf; omega⟩
    rw [pv_false]
    simp [parse_value, leadsWith]
  | .jtrue, d, fmt, f, rest, hg, hf, hb => by
    obtain ⟨f1, rfl⟩ : ∃ f1, f = f1 + 1 := ⟨f - 1, by simp only [nfV] at hf; omega⟩
    rw [pv_true]
    simp [parse_value, leadsWith]
  | .num q i, d, fmt, f, rest, hg, hf, hb => by
    simp only [goodV] at hg
    obtain ⟨hd, hlo, hhi⟩ := hg
    subst hd
    obtain ⟨f1, rfl⟩ : ∃ f1, f = f1 + 1 := ⟨f - 1, by simp only [nfV] at hf; omega⟩
    rw [pv_num, print_number_int i hlo hhi]
    obtain ⟨c, r, he, hc⟩ : ∃ c r, intStr i = c :: r ∧ (c = 45 ∨ (48 ≤ c ∧ c ≤ 57)) := by
      unfold intStr
      split
      · exact ⟨45, _, rfl, Or.inl rfl⟩
      · obtain ⟨c, r, he, h1, h2, _⟩ := natStrAux_head _ []
        exact ⟨c, r, he, Or.inr ⟨h1, h2⟩⟩
    rw [he, List.cons_append]
    have l1 : leadsWith [110, 117, 108, 108] (c :: (r ++ rest)) = false :=
      leadsWith_ne_head 110 c _ _ (by omega)
    have l2 : leadsWith [102, 97, 108, 115, 101] (c :: (r ++ rest)) = false :=
      leadsWith_ne_head 102 c _ _ (by omega)
    have l3 : leadsWith [116, 114, 117, 101] (c :: (r ++ rest)) = false :=
      leadsWith_ne_head 116 c _ _ (by omega)
    simp only [parse_value, l1, l2, l3, Bool.false_eq_true, if_false]
    rw [if_neg (show ¬(c = 34) by omega), if_pos hc]
    rw [← List.cons_append, ← he, parse_number_intStr i rest hb]
  | .str s, d, fmt, f, rest, hg, hf, hb => by
    simp only [goodV] at hg
    obtain ⟨f1, rfl⟩ : ∃ f1, f = f1 + 1 := ⟨f - 1, by simp only [nfV] at hf; omega⟩
    rw [pv_str, print_string_ptr_decomp, List.cons_append]
    have l1 : leadsWith [110, 117, 108, 108]
        (34 :: (((if needsEscaping s then s.flatMap escapeChar else s) ++ [34]) ++ rest)) = false :=
      leadsWith_ne_head 110 34 _ _ (by omega)
    have l2 : leadsWith [102, 97, 108, 115, 101]
        (34 :: (((if needsEscaping s then s.flatMap escapeChar else s) ++ [34]) ++ rest)) = false :=
      leadsWith_ne_head 102 34 _ _ (by omega)
    have l3 : leadsWith [116, 114, 117, 101]
        (34 :: (((if needsEscaping s then s.flatMap escapeChar else s) ++ [34]) ++ rest)) = false :=
      leadsWith_ne_head 116 34 _ _ (by omega)
    simp only [parse_value, l1, l2, l3, Bool.false_eq_true, if_false, if_true]
    rw [← List.cons_append, ← print_string_ptr_decomp, parse_string_print s hg rest]
  | .arr .nil, d, fmt, f, rest, hg, hf, hb => by
    obtain ⟨f1, rfl⟩ : ∃ f1, f = f1 + 1 + 1 := ⟨f - 2, by simp only [nfV] at hf; omega⟩
    rw [pv_arr, pa_nil]
    simp only [List.cons_append, List.nil_append]
    norm_num [parse_value, leadsWith]
    simp only [parse_array]
    rw [skip_gt 93 (by omega)]
  | .arr (.cons c tl), d, fmt, f, rest, hg, hf, hb => by
    simp only [goodV, goodL] at hg
    obtain ⟨hgc, hgtl⟩ := hg
    simp only [nfV] at hf
    obtain ⟨f1, rfl⟩ : ∃ f1, f = f1 + 1 + 1 := ⟨f - 2, by omega⟩
    have hfc : nfV c ≤ f1 := by omega
    have hftl : nfLA tl ≤ f1 := by omega
    rw [pv_arr, pa_cons]
    simp only [List.cons_append, List.append_assoc, List.singleton_append, List.nil_append]
    norm_num [parse_value, leadsWith]
    simp only [parse_array]
    rw [skip_skip, skip_pv]
    obtain ⟨hc, rc, hec, hgt, hne93, hne125⟩ := print_head c (d + 1) fmt
    rw [hec, List.cons_append]
    split
    · next r2 heq =>
      rw [List.cons.injEq] at heq
      exact absurd heq.1 hne93
    · next =>
      rw [← List.cons_append, ← hec]
      have hva := rt_value c (d + 1) fmt f1 (print_array_items tl d fmt ++ 93 :: rest)
        hgc hfc (Bnd_pai tl d fmt rest)
      have hta := rt_arr_tail tl d fmt f1 rest hgtl hftl hb
      simp only [hva, skip_pai, hta]
  | .obj .nil, d, fmt, f, rest, hg, hf, hb => by
    obtain ⟨f1, rfl⟩ : ∃ f1, f = f1 + 1 + 1 := ⟨f - 2, by simp only [nfV] at hf; omega⟩
    rw [pv_obj, po_nil]
    cases fmt
    · simp only [Bool.false_eq_true, if_false]
      simp only [List.cons_append, List.nil_append]
      norm_num [parse_value, leadsWith]
      simp only [parse_object]
      rw [skip_gt 125 (by omega)]
    · simp only [if_pos rfl]
      simp only [List.cons_append, List.append_assoc, List.singleton_append]
      norm_num [parse_value, leadsWith]
      simp only [parse_object]
      rw [skip_le32 10 (by omega), skip_append_le (tabs (d - 1)) (tabs_le32 _),
        skip_gt 125 (by omega)]
  | .obj (.cons k v tl), d, fmt, f, rest, hg, hf, hb => by
    simp only [goodV, goodM] at hg
    obtain ⟨hk, hgv, hgtl⟩ := hg
    simp only [nfV] at hf
    obtain ⟨f1, rfl⟩ : ∃ f1, f = f1 + 1 + 1 := ⟨f - 2, by omega⟩
    have hfv : nfV v ≤ f1 := by omega
    have hftl : nfLO tl ≤ f1 := by omega
    rw [pv_obj, po_cons, poi_cons2]
    simp only [List.cons_append, List.append_assoc, List.singleton_append, List.nil_append]
    norm_num [parse_value, leadsWith]
    simp only [parse_object]
    rw [skip_skip, skip_ifws fmt 10 (by omega), skip_iftabs fmt (d + 1), skip_psp]
    rw [print_string_ptr_decomp, List.cons_append]
    split
    · next r2 heq =>
      rw [List.cons.injEq] at heq
      exact absurd heq.1 (by omega)
    · next =>
      rw [← List.cons_append, ← print_string_ptr_decomp]
      have hps := parse_string_print k hk (58 :: ((if fmt then [9] else [])
        ++ (print_value v (d + 1) fmt ++ (objSep tl ++ ((if fmt then [10] else [])
        ++ (print_object_items tl (d + 1) fmt ++ ((if fmt then tabs d else [])
        ++ 125 :: rest)))))))
      have hvv := rt_value v (d + 1) fmt f1 _ hgv hfv (Bnd_objAfter tl d fmt rest)
      have hto := rt_obj_tail tl d fmt f1 rest hgtl hftl hb
      simp only [hps, skip_gt 58 (by omega), skip_ifws fmt 9 (by omega), skip_pv, hvv, hto]
  termination_by t _ _ _ _ _ _ _ => sizeOf t
  decreasing_by
  all_goals simp_wf
  all_goals omega

theorem rt_arr_tail : ∀ (tl : JList) (d : ℕ) (fmt : Bool) (f : ℕ) (rest : Bytes),
    goodL tl → nfLA tl ≤ f → Bnd rest →
    parse_array_tail f (print_array_items tl d fmt ++ 93 :: rest) = .ok (tl, rest)
  | .nil, d, fmt, f, rest, hg, hf, hb => by
    obtain ⟨f1, rfl⟩ : ∃ f1, f = f1 + 1 := ⟨f - 1, by simp only [nfLA] at hf; omega⟩
    rw [pai_nil, List.nil_append]
    norm_num [parse_array_tail]
  | .cons c tl2, d, fmt, f, rest, hg, hf, hb => by
    simp only [goodL] at hg
    obtain ⟨hgc, hgtl⟩ := hg
    simp only [nfLA] at hf
    obtain ⟨f1, rfl⟩ : ∃ f1, f = f1 + 1 := ⟨f - 1, by omega⟩
    have hfc : nfV c ≤ f1 := by omega
    have hftl : nfLA tl2 ≤ f1 := by omega
    rw [pai_cons]
    simp only [List.cons_append, List.append_assoc, List.nil_append]
    simp only [parse_array_tail]
    have hvv := rt_value c (d + 1) fmt f1 (print_array_items tl2 d fmt ++ 93 :: rest)
      hgc hfc (Bnd_pai tl2 d fmt rest)
    have hta := rt_arr_tail tl2 d fmt f1 rest hgtl hftl hb
    simp only [skip_ifws fmt 32 (by omega), skip_pv, hvv, skip_pai, hta]
  termination_by tl _ _ _ _ _ _ _ => sizeOf tl
  decreasing_by
  all_goals simp_wf
  all_goals omega

theorem rt_obj_tail : ∀ (tl : JMembers) (d : ℕ) (fmt : Bool) (f : ℕ) (rest : Bytes),
    goodM tl → nfLO tl ≤ f → Bnd rest →
    parse_object_tail f (skip (objSep tl ++ ((if fmt then [10] else [])
        ++ (print_object_items tl (d + 1) fmt
          ++ ((if fmt then tabs d else []) ++ 125 :: rest)))))
      = .ok (tl, rest)
  | .nil, d, fmt, f, rest, hg, hf, hb => by
    obtain ⟨f1, rfl⟩ : ∃ f1, f = f1 + 1 := ⟨f - 1, by simp only [nfLO] at hf; omega⟩
    simp only [objSep_nil, poi_nil, List.nil_append]
    rw [skip_ifws fmt 10 (by omega), skip_iftabs fmt d, skip_gt 125 (by omega)]
    norm_num [parse_object_tail]
  | .cons k v tl2, d, fmt, f, rest, hg, hf, hb => by
    simp only [goodM] at hg
    obtain ⟨hk, hgv, hgtl⟩ := hg
    simp only [nfLO] at hf
    obtain ⟨f1, rfl⟩ : ∃ f1, f = f1 + 1 := ⟨f - 1, by omega⟩
    have hfv : nfV v ≤ f1 := by omega
    have hftl : nfLO tl2 ≤ f1 := by omega
    rw [poi_cons2]
    simp only [objSep_cons, List.cons_append, List.append_assoc, List.singleton_append,
      List.nil_append]
    rw [skip_gt 44 (by omega)]
    simp only [parse_object_tail]
    rw [skip_ifws fmt 10 (by omega), skip_iftabs fmt (d + 1), skip_psp]
    have hps := parse_string_print k hk (58 :: ((if fmt then [9] else [])
      ++ (print_value v (d + 1) fmt ++ (objSep tl2 ++ ((if fmt then [10] else [])
      ++ (print_object_items tl2 (d + 1) fmt ++ ((if fmt then tabs d else [])
      ++ 125 :: rest)))))))
    have hvv := rt_value v (d + 1) fmt f1 _ hgv hfv (Bnd_objAfter tl2 d fmt rest)
    have hto := rt_obj_tail tl2 d fmt f1 rest hgtl hftl hb
    simp only [hps, skip_gt 58 (by omega), skip_ifws fmt 9 (by omega), skip_pv, hvv, hto]
  termination_by tl _ _ _ _ _ _ _ => sizeOf tl
  decreasing_by
  all_goals simp_wf
  all_goals omega
end

end CJson

namespace CJson

/-- C1 (amended): for every tree whose numbers carry an integer-valued
double inside 32-bit range with a matching valueint cache and whose
strings and keys are NUL-free byte strings, parsing the serialization at
either format flag, with or without require_null_terminated, returns a
structurally equal tree and consumes the whole text. -/
theorem c1_round_trip_amended (t : JVal) (hg : goodV t) (fmt rnt : Bool) :
    cJSON_ParseWithOpts (print_value t 0 fmt) rnt = .ok (t, []) := by
  rw [cJSON_ParseWithOpts]
  have hskip : skip (print_value t 0 fmt) = print_value t 0 fmt := by
    have h := skip_pv t 0 fmt []
    simpa using h
  rw [hskip]
  have hfuel : nfV t ≤ 2 * (print_value t 0 fmt).length + 2 := by
    have := nfB_value t 0 fmt
    omega
  have hrt := rt_value t 0 fmt (2 * (print_value t 0 fmt).length + 2) [] hg hfuel (by simp [Bnd])
  rw [List.append_nil] at hrt
  rw [hrt]
  cases rnt <;> simp [skip]

/-- C1 witness: the amended round trip applied to a concrete object
holding a number, a string inside an array, and a null. -/
theorem c1_round_trip_amended_witness :
    goodV (JVal.obj (JMembers.cons [97] (.num 1 1)
        (JMembers.cons [98] (.arr (JList.cons (.str [120]) (JList.cons .null .nil))) .nil)))
    ∧ cJSON_ParseWithOpts (print_value (JVal.obj (JMembers.cons [97] (.num 1 1)
          (JMembers.cons [98] (.arr (JList.cons (.str [120]) (JList.cons .null .nil))) .nil)))
        0 true) true
      = .ok (JVal.obj (JMembers.cons [97] (.num 1 1)
          (JMembers.cons [98] (.arr (JList.cons (.str [120]) (JList.cons .null .nil))) .nil)), []) :=
  ⟨by norm_num [goodV, goodM, goodL],
   c1_round_trip_amended _ (by norm_num [goodV, goodM, goodL]) true true⟩

/-- C1 counterexample: a Number node whose double is 0.1234567 (not an
integer) serializes via %f to "0.123457" (six rounded decimals), which
parses back to the different double 0.123457: the round trip is not the
identity on trees the creation API can build from an arbitrary double,
so the unrestricted claim fails. -/
theorem c1_counterexample :
    cJSON_PrintUnformatted (JVal.num (1234567 / 10000000) 0) = [48, 46, 49, 50, 51, 52, 53, 55]
    ∧ cJSON_Parse [48, 46, 49, 50, 51, 52, 53, 55] = .ok (.num (123457 / 1000000) 0, [])
    ∧ JVal.num (123457 / 1000000) 0 ≠ JVal.num (1234567 / 10000000) 0 := by
  refine ⟨?_, ?_, ?_⟩
  · rw [cJSON_PrintUnformatted, pv_num, print_number]
    rw [if_neg (by norm_num)]
    rw [if_neg (by
      rintro ⟨h1, -⟩
      rw [Int.cast_zero, zero_sub, abs_neg, abs_of_nonneg (by norm_num)] at h1
      rw [DBL_EPSILON] at h1
      norm_num at h1)]
    rw [if_neg (by
      rintro ⟨h1, -⟩
      rw [show ⌊(1234567 / 10000000 : ℚ)⌋ = 0 from by rw [Int.floor_eq_iff] <;> norm_num] at h1
      rw [Int.cast_zero, zero_sub, abs_neg, abs_of_nonneg (by norm_num)] at h1
      rw [DBL_EPSILON] at h1
      norm_num at h1)]
    rw [if_neg (by
      rintro (h1 | h1)
      · rw [abs_of_nonneg (by norm_num)] at h1
        norm_num at h1
      · rw [abs_of_nonneg (by norm_num)] at h1
        norm_num at h1)]
    rw [fmtFixed, if_neg (by norm_num)]
    simp only [fixed6]
    rw [show ⌊(1234567 / 10000000 : ℚ) * 1000000 + 1 / 2⌋ = 123457 from by
      rw [Int.floor_eq_iff] <;> norm_num]
    rw [show Int.toNat 123457 = 123457 from rfl]
    norm_num
    rw [show natStr 0 = [48] from by unfold natStr; rw [natStrAux.eq_def]; norm_num]
    norm_num [pad6]
  · rw [cJSON_Parse, cJSON_ParseWithOpts]
    norm_num [skip, parse_value.eq_def, leadsWith, parse_number, pn_digits, pn_frac, pn_exp,
      truncQ]
  · intro h
    rw [JVal.num.injEq] at h
    have h1 := h.1
    norm_num at h1

end CJson

namespace CJson

/-! ## Sibling-chain machinery for the mutation invariant -/

theorem linksB_nil_iff (h : Heap) (cur pr : Option Nat) :
    linksB h cur pr [] = true ↔ cur = none := by
  simp [linksB]

theorem linksB_cons_iff (h : Heap) (cur pr : Option Nat) (n : Nat) (rest : List Nat) :
    linksB h cur pr (n :: rest) = true
      ↔ cur = some n ∧ h.prv n = pr ∧ linksB h (h.nxt n) (some n) rest = true := by
  simp only [linksB, Bool.and_eq_true, beq_iff_eq, and_assoc]

theorem linksFrom_append (h : Heap) : ∀ (xs ys : List Nat) (cur pr : Option Nat),
    linksFrom h cur pr (xs ++ ys)
      = (linksFrom h cur pr xs).bind (fun st => linksFrom h st.1 st.2 ys) := by
  intro xs
  induction xs with
  | nil =>
    intro ys cur pr
    simp [linksFrom]
  | cons n rest ih =>
    intro ys cur pr
    simp only [List.cons_append, linksFrom]
    split
    · exact ih ys _ _
    · rfl

theorem linksB_iff_linksFrom (h : Heap) : ∀ (l : List Nat) (cur pr : Option Nat),
    linksB h cur pr l = true ↔ ∃ p, linksFrom h cur pr l = some (none, p) := by
  intro l
  induction l with
  | nil =>
    intro cur pr
    rw [linksB_nil_iff]
    simp only [linksFrom, Option.some.injEq, Prod.mk.injEq]
    constructor
    · intro hc
      exact ⟨pr, hc, rfl⟩
    · rintro ⟨p, hc, -⟩
      exact hc
  | cons n rest ih =>
    intro cur pr
    rw [linksB_cons_iff]
    simp only [linksFrom]
    constructor
    · rintro ⟨h1, h2, h3⟩
      obtain ⟨p, hp⟩ := (ih (h.nxt n) (some n)).mp h3
      exact ⟨p, by rw [if_pos ⟨h1, h2⟩]; exact hp⟩
    · rintro ⟨p, hp⟩
      by_cases hc : cur = some n ∧ h.prv n = pr
      · rw [if_pos hc] at hp
        exact ⟨hc.1, hc.2, (ih (h.nxt n) (some n)).mpr ⟨p, hp⟩⟩
      · rw [if_neg hc] at hp
        exact absurd hp (by simp)

theorem linksFrom_frame (h h' : Heap) : ∀ (l : List Nat) (cur pr : Option Nat),
    (∀ n ∈ l, h'.nxt n = h.nxt n ∧ h'.prv n = h.prv n) →
    linksFrom h' cur pr l = linksFrom h cur pr l := by
  intro l
  induction l with
  | nil =>
    intro cur pr hagree
    rfl
  | cons n rest ih =>
    intro cur pr hagree
    obtain ⟨hn1, hn2⟩ := hagree n (by simp)
    simp only [linksFrom, hn1, hn2]
    split
    · exact ih _ _ (fun m hm => hagree m (by simp [hm]))
    · rfl

theorem linksFrom_head (h : Heap) (n : Nat) (rest : List Nat) (cur pr : Option Nat) (st)
    (hlf : linksFrom h cur pr (n :: rest) = some st) :
    cur = some n ∧ h.prv n = pr
      ∧ linksFrom h (h.nxt n) (some n) rest = some st := by
  rw [linksFrom] at hlf
  by_cases hc : cur = some n ∧ h.prv n = pr
  · rw [if_pos hc] at hlf
    exact ⟨hc.1, hc.2, hlf⟩
  · rw [if_neg hc] at hlf
    exact absurd hlf (by simp)

theorem linksFrom_last (h : Heap) : ∀ (xs : List Nat) (n : Nat) (cur pr : Option Nat) (st),
    linksFrom h cur pr (xs ++ [n]) = some st → st = (h.nxt n, some n) := by
  intro xs
  induction xs with
  | nil =>
    intro n cur pr st hlf
    obtain ⟨-, -, h3⟩ := linksFrom_head h n [] cur pr st hlf
    simpa [linksFrom] using h3.symm
  | cons m rest ih =>
    intro n cur pr st hlf
    rw [List.cons_append] at hlf
    obtain ⟨-, -, h3⟩ := linksFrom_head h m (rest ++ [n]) cur pr st hlf
    exact ih n _ _ st h3

theorem linksFrom_retarget (h h' : Heap) (xs : List Nat) (n : Nat) (cur pr : Option Nat) (st)
    (hlf : linksFrom h cur pr (xs ++ [n]) = some st)
    (hagree : ∀ m ∈ xs, h'.nxt m = h.nxt m ∧ h'.prv m = h.prv m)
    (hprv : h'.prv n = h.prv n) :
    linksFrom h' cur pr (xs ++ [n]) = some (h'.nxt n, some n) := by
  rw [linksFrom_append] at hlf ⊢
  cases hmid : linksFrom h cur pr xs with
  | none =>
    rw [hmid] at hlf
    exact absurd hlf (by simp)
  | some mid =>
    rw [hmid] at hlf
    rw [linksFrom_frame h h' xs cur pr hagree, hmid]
    simp only [Option.bind] at hlf ⊢
    obtain ⟨h1, h2, -⟩ := linksFrom_head h n [] mid.1 mid.2 st hlf
    rw [linksFrom, if_pos ⟨h1, by rw [hprv]; exact h2⟩]
    rfl

theorem walkIdx_drop (h : Heap) : ∀ (l : List Nat) (cur pr : Option Nat),
    linksB h cur pr l = true → ∀ w, walkIdx h cur w = (l.drop w).head? := by
  intro l
  induction l with
  | nil =>
    intro cur pr hlk w
    rw [linksB_nil_iff] at hlk
    subst hlk
    cases w <;> rfl
  | cons n rest ih =>
    intro cur pr hlk w
    rw [linksB_cons_iff] at hlk
    obtain ⟨h1, h2, h3⟩ := hlk
    subst h1
    cases w with
    | zero => rfl
    | succ w =>
      rw [walkIdx]
      rw [ih (h.nxt n) (some n) h3 w]
      rfl

theorem walkEnd_last (h : Heap) : ∀ (rest : List Nat) (c : Nat) (pr : Option Nat),
    linksB h (some c) pr (c :: rest) = true → ∀ f, rest.length ≤ f →
    walkEnd h c f = (c :: rest).getLast (by simp) := by
  intro rest
  induction rest with
  | nil =>
    intro c pr hlk f hf
    rw [linksB_cons_iff] at hlk
    obtain ⟨-, -, h3⟩ := hlk
    rw [linksB_nil_iff] at h3
    cases f with
    | zero => rfl
    | succ f =>
      simp only [walkEnd, h3]
      simp
  | cons m rest2 ih =>
    intro c pr hlk f hf
    rw [linksB_cons_iff] at hlk
    obtain ⟨-, -, h3⟩ := hlk
    have h4 := h3
    rw [linksB_cons_iff] at h4
    have hnx : h.nxt c = some m := h4.1
    rw [hnx] at h3
    cases f with
    | zero => simp at hf
    | succ f =>
      simp only [walkEnd, hnx]
      rw [ih m (some c) h3 f (by simpa using hf)]
      simp [List.getLast_cons]

theorem prv_some_of_mem (h : Heap) : ∀ (l : List Nat) (cur : Option Nat) (p : Nat),
    linksB h cur (some p) l = true → ∀ n ∈ l, h.prv n ≠ none := by
  intro l
  induction l with
  | nil =>
    intro cur p hlk n hn
    simp at hn
  | cons m rest ih =>
    intro cur p hlk n hn
    rw [linksB_cons_iff] at hlk
    obtain ⟨-, h2, h3⟩ := hlk
    rcases List.mem_cons.mp hn with rfl | hn2
    · rw [h2]
      simp
    · exact ih (h.nxt m) m h3 n hn2

theorem first_unique (h : Heap) (first : Option Nat) (l : List Nat)
    (hwf : WFList h first l) : ∀ n ∈ l, h.prv n = none → first = some n := by
  obtain ⟨hlk, -⟩ := hwf
  cases l with
  | nil =>
    intro n hn
    simp at hn
  | cons m rest =>
    intro n hn hprv
    rw [linksB_cons_iff] at hlk
    obtain ⟨h1, -, h3⟩ := hlk
    rcases List.mem_cons.mp hn with rfl | hn2
    · exact h1
    · exact absurd hprv (prv_some_of_mem h rest (h.nxt m) m h3 n hn2)


theorem add_preserves (h : Heap) (child : Option Nat) (l : List Nat) (it : Nat) (f : ℕ)
    (hwf : WFList h child l) (hf : l.length ≤ f + 1)
    (hit : it ∉ l) (hnx : h.nxt it = none) (hpv : h.prv it = none) :
    WFList (cJSON_AddItemToArray h child it f).1 (cJSON_AddItemToArray h child it f).2
      (l ++ [it]) := by
  obtain ⟨hlk, hnd⟩ := hwf
  cases l with
  | nil =>
    rw [linksB_nil_iff] at hlk
    subst hlk
    unfold cJSON_AddItemToArray
    refine ⟨?_, by simp⟩
    rw [List.nil_append, linksB_cons_iff]
    exact ⟨rfl, hpv, (linksB_nil_iff h (h.nxt it) (some it)).mpr hnx⟩
  | cons c rest =>
    have hc : child = some c := by
      rw [linksB_cons_iff] at hlk
      exact hlk.1
    subst hc
    unfold cJSON_AddItemToArray
    dsimp only
    have hlast := walkEnd_last h rest c none hlk f (by simpa using hf)
    rw [hlast]
    set lst := (c :: rest).getLast (by simp) with hlst
    set h2 := suffix_object h lst it with hh2
    have hread_nxt : ∀ m, m ≠ lst → h2.nxt m = h.nxt m := by
      intro m hm
      rw [hh2, suffix_object]
      exact Function.update_noteq hm _ _
    have hread_prv : ∀ m, m ≠ it → h2.prv m = h.prv m := by
      intro m hm
      rw [hh2, suffix_object]
      exact Function.update_noteq hm _ _
    have hlst_mem : lst ∈ c :: rest := List.getLast_mem _
    have hit_ne_lst : it ≠ lst := fun he => hit (he ▸ hlst_mem)
    have hdecomp : c :: rest = (c :: rest).dropLast ++ [lst] :=
      (List.dropLast_append_getLast (by simp)).symm
    have hlst_not_dl : lst ∉ (c :: rest).dropLast := by
      have hnd2 := hnd
      rw [hdecomp, show (c :: rest).dropLast ++ [lst]
          = (c :: rest).dropLast ++ lst :: [] from rfl, List.nodup_middle,
        List.nodup_cons] at hnd2
      simpa using hnd2.1
    obtain ⟨p, hp⟩ := (linksB_iff_linksFrom h (c :: rest) (some c) none).mp hlk
    refine ⟨?_, ?_⟩
    · rw [linksB_iff_linksFrom]
      refine ⟨some it, ?_⟩
      rw [hdecomp] at hp
      have hxs := linksFrom_retarget h h2 ((c :: rest).dropLast) lst (some c) none (none, p) hp
        (by
          intro m hm
          refine ⟨hread_nxt m (fun he => hlst_not_dl (he ▸ hm)), ?_⟩
          exact hread_prv m (fun he => hit (he ▸ List.dropLast_subset _ hm)))
        (hread_prv lst hit_ne_lst.symm)
      have hnxt_lst : h2.nxt lst = some it := by
        rw [hh2, suffix_object]
        exact Function.update_same _ _ _
      rw [show (c :: rest) ++ [it] = ((c :: rest).dropLast ++ [lst]) ++ [it] from by
        rw [← hdecomp]]
      rw [linksFrom_append, hxs]
      simp only [Option.bind]
      rw [linksFrom, if_pos ⟨by rw [hnxt_lst], by
        rw [hh2, suffix_object]
        exact Function.update_same _ _ _⟩]
      rw [show h2.nxt it = none from by rw [hread_nxt it hit_ne_lst, hnx]]
      rfl
    · rw [show (c :: rest) ++ [it] = (c :: rest) ++ it :: [] from rfl, List.nodup_middle,
        List.nodup_cons]
      exact ⟨by simpa using hit, by simpa using hnd⟩


theorem detach_preserves (h : Heap) (child : Option Nat) (l : List Nat) (w : ℕ)
    (hwf : WFList h child l) :
    ∃ l2, WFList (cJSON_DetachItemFromArray h child w).1
        (cJSON_DetachItemFromArray h child w).2.1 l2 := by
  obtain ⟨hlk, hnd⟩ := hwf
  have hwalk : walkIdx h child w = (l.drop w).head? := walkIdx_drop h l child none hlk w
  unfold cJSON_DetachItemFromArray
  rcases hdw : (l.drop w).head? with _ | c
  · rw [hwalk, hdw]
    exact ⟨l, hlk, hnd⟩
  · rw [hwalk, hdw]
    dsimp only
    obtain ⟨ys, hys⟩ : ∃ ys, l.drop w = c :: ys := by
      rcases hlw : l.drop w with _ | ⟨c2, ys⟩
      · rw [hlw] at hdw
        exact absurd hdw (by simp)
      · rw [hlw] at hdw
        simp only [Option.some.injEq, List.head?_cons] at hdw
        exact ⟨ys, by rw [hdw]⟩
    have hl : l = l.take w ++ c :: ys := by rw [← hys, List.take_append_drop]
    rw [hl] at hlk hnd
    have hndm := hnd
    rw [List.nodup_middle, List.nodup_cons] at hndm
    obtain ⟨hcmem, hndxy⟩ := hndm
    obtain ⟨pend, hpend⟩ := (linksB_iff_linksFrom h _ child none).mp hlk
    rw [linksFrom_append] at hpend
    rcases hmid : linksFrom h child none (l.take w) with _ | mid
    · rw [hmid] at hpend
      exact absurd hpend (by simp)
    rw [hmid] at hpend
    simp only [Option.bind] at hpend
    obtain ⟨hcur, hprvc, hys_chain⟩ := linksFrom_head h c ys mid.1 mid.2 _ hpend
    have hdisj := List.disjoint_of_nodup_append hndxy
    rcases hxs : l.take w with _ | ⟨x0, xs1⟩
    · -- detaching the head: child = some c, prv c = none
      rw [hxs] at hmid
      simp only [linksFrom, Option.some.injEq] at hmid
      have hchild : child = some c := by rw [← hmid] at hcur; exact hcur
      have hpc : h.prv c = none := by rw [← hmid] at hprvc; exact hprvc
      rw [hpc]
      dsimp only
      rcases hysc : ys with _ | ⟨nx, ys2⟩
      · rw [hysc] at hys_chain
        simp only [linksFrom, Option.some.injEq, Prod.mk.injEq] at hys_chain
        have hnc : h.nxt c = none := hys_chain.1
        rw [hnc]
        dsimp only
        rw [if_pos hchild.symm, hnc]
        refine ⟨[], ?_, by simp⟩
        rw [linksB_nil_iff]
      · rw [hysc] at hys_chain hcmem hndxy
        obtain ⟨hnc, hpnx, hys2_chain⟩ := linksFrom_head h nx ys2 _ _ _ hys_chain
        rw [hnc]
        dsimp only
        rw [if_pos hchild.symm]
        have hnxc : nx ≠ c := by
          intro he
          exact hcmem (by simp [he])
        have hcys2 : c ∉ ys2 := by
          intro hm
          exact hcmem (by simp [hm])
        have hnxys2 : nx ∉ ys2 := by
          have := hndxy.of_append_right
      
          rw [List.nodup_cons] at this
          exact this.1
        refine ⟨nx :: ys2, ?_, hndxy.of_append_right⟩
        rw [linksB_cons_iff]
        refine ⟨hnc, ?_, ?_⟩
        · show Function.update (Function.update h.prv nx (h.prv c)) c none nx = none
          rw [Function.update_noteq hnxc _ _, Function.update_same, hpc]
        · show linksB _ (Function.update h.nxt c none nx) (some nx) ys2 = true
          rw [Function.update_noteq hnxc _ _]
          rw [linksB_iff_linksFrom]
          refine ⟨pend, ?_⟩
          rw [linksFrom_frame h _ ys2 _ _ ?_]
          · exact hys2_chain
          · intro m hm
            have hmc : m ≠ c := fun he => hcys2 (he ▸ hm)
            have hmnx : m ≠ nx := fun he => hnxys2 (he ▸ hm)
            constructor
            · exact Function.update_noteq hmc _ _
            · show Function.update (Function.update h.prv nx (h.prv c)) c none m = h.prv m
              rw [Function.update_noteq hmc _ _, Function.update_noteq hmnx _ _]
    · -- detaching a non-head node: child = some x0, prv c = some (last prefix)
      rw [hxs] at hmid hcmem hndxy hdisj
      obtain ⟨hchild0, -, -⟩ := linksFrom_head h x0 xs1 child none mid hmid
      have hcx : c ∉ x0 :: xs1 := fun hm => hcmem (List.mem_append.mpr (Or.inl hm))
      have hcy : c ∉ ys := fun hm => hcmem (List.mem_append.mpr (Or.inr hm))
      set p := (x0 :: xs1).getLast (by simp) with hp
      have hpmem : p ∈ x0 :: xs1 := List.getLast_mem _
      have hdecomp : x0 :: xs1 = (x0 :: xs1).dropLast ++ [p] :=
        (List.dropLast_append_getLast (by simp)).symm
      have hpdl : p ∉ (x0 :: xs1).dropLast := by
        have hnd2 : ((x0 :: xs1).dropLast ++ [p]).Nodup := by
          rw [← hdecomp]
          exact hndxy.of_append_left
        rw [show (x0 :: xs1).dropLast ++ [p] = (x0 :: xs1).dropLast ++ p :: [] from rfl,
          List.nodup_middle, List.nodup_cons] at hnd2
        simpa using hnd2.1
      rw [hdecomp] at hmid
      have hmid2 := linksFrom_last h _ p child none mid hmid
      have hpc : h.prv c = some p := by rw [hprvc, hmid2]
      have hcp : c ≠ p := fun he => hcx (he ▸ hpmem)
      rw [hpc]
      dsimp only
      rw [show Function.update h.nxt p (h.nxt c) c = h.nxt c from
        Function.update_noteq hcp _ _]
      have hifneg : ¬(some c = child) := by
        rw [hchild0]
        intro he
        simp only [Option.some.injEq] at he
        exact hcx (by simp [he])
      rcases hysc : ys with _ | ⟨nx, ys2⟩
      · rw [hysc] at hys_chain
        simp only [linksFrom, Option.some.injEq, Prod.mk.injEq] at hys_chain
        have hnc : h.nxt c = none := hys_chain.1
        rw [hnc]
        dsimp only
        rw [if_neg hifneg]
        refine ⟨x0 :: xs1, ?_, by
          rw [hysc] at hndxy
          simpa using hndxy⟩
        rw [linksB_iff_linksFrom]
        refine ⟨some p, ?_⟩
        rw [hdecomp]
        have hretarget := linksFrom_retarget h
          { nxt := Function.update (Function.update h.nxt p none) c none,
            prv := Function.update h.prv c none, key := h.key }
          ((x0 :: xs1).dropLast) p child none mid hmid ?_ ?_
        · rw [hretarget]
          dsimp only
          rw [Function.update_noteq hcp.symm _ _, Function.update_same]
        · intro m hm
          have hmp : m ≠ p := fun he => hpdl (he ▸ hm)
          have hmc : m ≠ c := fun he => hcx (he ▸ List.dropLast_subset _ hm)
          constructor
          · show Function.update (Function.update h.nxt p none) c none m = h.nxt m
            rw [Function.update_noteq hmc _ _, Function.update_noteq hmp _ _]
          · exact Function.update_noteq hmc _ _
        · exact Function.update_noteq hcp.symm _ _
      · rw [hysc] at hys_chain hcy hdisj hndxy
        obtain ⟨hnc, hpnx, hys2_chain⟩ := linksFrom_head h nx ys2 _ _ _ hys_chain
        rw [hnc]
        dsimp only
        rw [if_neg hifneg]
        have hnxc : nx ≠ c := fun he => hcy (by simp [he])
        have hnxp : nx ≠ p := fun he => hdisj hpmem (by simp [he])
        have hcys2 : c ∉ ys2 := fun hm => hcy (by simp [hm])
        have hnxys2 : nx ∉ ys2 := by
          have := hndxy.of_append_right
          rw [List.nodup_cons] at this
          exact this.1
        refine ⟨(x0 :: xs1) ++ nx :: ys2, ?_, hndxy⟩
        rw [linksB_iff_linksFrom]
        refine ⟨pend, ?_⟩
        have hretarget := linksFrom_retarget h
          { nxt := Function.update (Function.update h.nxt p (some nx)) c none,
            prv := Function.update (Function.update h.prv nx (h.prv c)) c none,
            key := h.key }
          ((x0 :: xs1).dropLast) p child none mid hmid ?_ ?_
        · rw [show (x0 :: xs1) ++ nx :: ys2
              = ((x0 :: xs1).dropLast ++ [p]) ++ nx :: ys2 from by rw [← hdecomp]]
          rw [linksFrom_append, hretarget]
          simp only [Option.bind]
          rw [show Function.update (Function.update h.nxt p (some nx)) c none p
              = some nx from by rw [Function.update_noteq hcp.symm _ _, Function.update_same]]
          rw [linksFrom, if_pos ⟨rfl, show Function.update
                (Function.update h.prv nx (h.prv c)) c none nx = some p from by
              rw [Function.update_noteq hnxc _ _, Function.update_same, hpc]⟩]
          dsimp only
          rw [show Function.update (Function.update h.nxt p (some nx)) c none nx
              = h.nxt nx from by
            rw [Function.update_noteq hnxc _ _, Function.update_noteq hnxp _ _]]
          rw [linksFrom_frame h _ ys2 _ _ ?_]
          · exact hys2_chain
          · intro m hm
            have hmc : m ≠ c := fun he => hcys2 (he ▸ hm)
            have hmp : m ≠ p := fun he => hdisj hpmem (by simp [he ▸ hm])
            have hmnx : m ≠ nx := fun he => hnxys2 (he ▸ hm)
            constructor
            · show Function.update (Function.update h.nxt p (some nx)) c none m = h.nxt m
              rw [Function.update_noteq hmc _ _, Function.update_noteq hmp _ _]
            · show Function.update (Function.update h.prv nx (h.prv c)) c none m = h.prv m
              rw [Function.update_noteq hmc _ _, Function.update_noteq hmnx _ _]
        · intro m hm
          have hmp : m ≠ p := fun he => hpdl (he ▸ hm)
          have hmc : m ≠ c := fun he => hcx (he ▸ List.dropLast_subset _ hm)
          have hmnx : m ≠ nx := fun he => hdisj (List.dropLast_subset _ hm)
            (by simp [he])
          constructor
          · show Function.update (Function.update h.nxt p (some nx)) c none m = h.nxt m
            rw [Function.update_noteq hmc _ _, Function.update_noteq hmp _ _]
          · show Function.update (Function.update h.prv nx (h.prv c)) c none m = h.prv m
            rw [Function.update_noteq hmc _ _, Function.update_noteq hmnx _ _]
        · show Function.update (Function.update h.prv nx (h.prv c)) c none p = h.prv p
          rw [Function.update_noteq hcp.symm _ _, Function.update_noteq hnxp.symm _ _]


theorem insert_preserves (h : Heap) (child : Option Nat) (l : List Nat) (w : ℕ) (it : Nat)
    (f : ℕ) (hwf : WFList h child l) (hf : l.length ≤ f + 1)
    (hit : it ∉ l) (hitn : h.nxt it = none) (hitp : h.prv it = none) :
    ∃ l2, WFList (cJSON_InsertItemInArray h child w it f).1
        (cJSON_InsertItemInArray h child w it f).2 l2 := by
  obtain ⟨hlk, hnd⟩ := hwf
  have hwalk : walkIdx h child w = (l.drop w).head? := walkIdx_drop h l child none hlk w
  unfold cJSON_InsertItemInArray
  rcases hdw : (l.drop w).head? with _ | c
  · rw [hwalk, hdw]
    exact ⟨l ++ [it], add_preserves h child l it f ⟨hlk, hnd⟩ hf hit hitn hitp⟩
  · rw [hwalk, hdw]
    dsimp only
    obtain ⟨ys, hys⟩ : ∃ ys, l.drop w = c :: ys := by
      rcases hlw : l.drop w with _ | ⟨c2, ys⟩
      · rw [hlw] at hdw
        exact absurd hdw (by simp)
      · rw [hlw] at hdw
        simp only [Option.some.injEq, List.head?_cons] at hdw
        exact ⟨ys, by rw [hdw]⟩
    have hl : l = l.take w ++ c :: ys := by rw [← hys, List.take_append_drop]
    rw [hl] at hlk hnd hit
    have hndm := hnd
    rw [List.nodup_middle, List.nodup_cons] at hndm
    obtain ⟨hcmem, hndxy⟩ := hndm
    obtain ⟨pend, hpend⟩ := (linksB_iff_linksFrom h _ child none).mp hlk
    rw [linksFrom_append] at hpend
    rcases hmid : linksFrom h child none (l.take w) with _ | mid
    · rw [hmid] at hpend
      exact absurd hpend (by simp)
    rw [hmid] at hpend
    simp only [Option.bind] at hpend
    obtain ⟨hcur, hprvc, hys_chain⟩ := linksFrom_head h c ys mid.1 mid.2 _ hpend
    have hdisj := List.disjoint_of_nodup_append hndxy
    have hitc : it ≠ c := fun he => hit (by simp [he])
    have hity : it ∉ ys := fun hm => hit (by simp [hm])
    have hcy : c ∉ ys := fun hm => hcmem (List.mem_append.mpr (Or.inr hm))
    rcases hxs : l.take w with _ | ⟨x0, xs1⟩
    · -- inserting before the head
      rw [hxs] at hmid hit hnd
      simp only [linksFrom, Option.some.injEq] at hmid
      have hchild : child = some c := by rw [← hmid] at hcur; exact hcur
      have hpc : h.prv c = none := by rw [← hmid] at hprvc; exact hprvc
      rw [if_pos hchild.symm]
      refine ⟨it :: c :: ys, ?_, ?_⟩
      · rw [linksB_cons_iff]
        refine ⟨rfl, ?_, ?_⟩
        · show Function.update (Function.update h.prv it (h.prv c)) c (some it) it = none
          rw [Function.update_noteq hitc _ _, Function.update_same, hpc]
        · rw [linksB_cons_iff]
          refine ⟨show Function.update h.nxt it (some c) it = some c from
            Function.update_same _ _ _, ?_, ?_⟩
          · show Function.update (Function.update h.prv it (h.prv c)) c (some it) c = some it
            rw [Function.update_same]
          · show linksB _ (Function.update h.nxt it (some c) c) (some c) ys = true
            rw [Function.update_noteq (fun he => hitc he.symm) _ _]
            rw [linksB_iff_linksFrom]
            refine ⟨pend, ?_⟩
            rw [linksFrom_frame h _ ys _ _ ?_]
            · exact hys_chain
            · intro m hm
              have hmit : m ≠ it := fun he => hity (he ▸ hm)
              have hmc : m ≠ c := fun he => hcy (he ▸ hm)
              constructor
              · exact Function.update_noteq hmit _ _
              · show Function.update (Function.update h.prv it (h.prv c)) c (some it) m
                  = h.prv m
                rw [Function.update_noteq hmc _ _, Function.update_noteq hmit _ _]
      · rw [List.nodup_cons]
        exact ⟨by simpa using hit, by simpa using hnd⟩
    · -- inserting before a non-head node
      rw [hxs] at hmid hcmem hndxy hdisj hit hnd
      obtain ⟨hchild0, -, -⟩ := linksFrom_head h x0 xs1 child none mid hmid
      have hcx : c ∉ x0 :: xs1 := fun hm => hcmem (List.mem_append.mpr (Or.inl hm))
      have hitx : it ∉ x0 :: xs1 := fun hm => hit (List.mem_append.mpr (Or.inl hm))
      set p := (x0 :: xs1).getLast (by simp) with hp
      have hpmem : p ∈ x0 :: xs1 := List.getLast_mem _
      have hdecomp : x0 :: xs1 = (x0 :: xs1).dropLast ++ [p] :=
        (List.dropLast_append_getLast (by simp)).symm
      have hpdl : p ∉ (x0 :: xs1).dropLast := by
        have hnd2 : ((x0 :: xs1).dropLast ++ [p]).Nodup := by
          rw [← hdecomp]
          exact hndxy.of_append_left
        rw [show (x0 :: xs1).dropLast ++ [p] = (x0 :: xs1).dropLast ++ p :: [] from rfl,
          List.nodup_middle, List.nodup_cons] at hnd2
        simpa using hnd2.1
      rw [hdecomp] at hmid
      have hmid2 := linksFrom_last h _ p child none mid hmid
      have hpc : h.prv c = some p := by rw [hprvc, hmid2]
      have hcp : c ≠ p := fun he => hcx (he ▸ hpmem)
      have hitp2 : it ≠ p := fun he => hitx (he ▸ hpmem)
      have hifneg : ¬(some c = child) := by
        rw [hchild0]
        intro he
        simp only [Option.some.injEq] at he
        exact hcx (by simp [he])
      rw [if_neg hifneg]
      rw [show Function.update (Function.update h.prv it (h.prv c)) c (some it) it
          = h.prv c from by rw [Function.update_noteq hitc _ _, Function.update_same]]
      rw [hpc]
      dsimp only
      refine ⟨(x0 :: xs1) ++ it :: c :: ys, ?_, ?_⟩
      · rw [linksB_iff_linksFrom]
        refine ⟨pend, ?_⟩
        have hretarget := linksFrom_retarget h
          { nxt := Function.update (Function.update h.nxt it (some c)) p (some it),
            prv := Function.update (Function.update h.prv it (some p)) c (some it),
            key := h.key }
          ((x0 :: xs1).dropLast) p child none mid hmid ?_ ?_
        · rw [show (x0 :: xs1) ++ it :: c :: ys
              = ((x0 :: xs1).dropLast ++ [p]) ++ it :: c :: ys from by rw [← hdecomp]]
          rw [linksFrom_append, hretarget]
          simp only [Option.bind]
          rw [show Function.update (Function.update h.nxt it (some c)) p (some it) p
              = some it from Function.update_same _ _ _]
          rw [linksFrom, if_pos ⟨rfl, show Function.update
                (Function.update h.prv it (some p)) c (some it) it = some p from by
              rw [Function.update_noteq hitc _ _, Function.update_same]⟩]
          dsimp only
          rw [show Function.update (Function.update h.nxt it (some c)) p (some it) it
              = some c from by
            rw [Function.update_noteq hitp2 _ _, Function.update_same]]
          rw [linksFrom, if_pos ⟨rfl, show Function.update
                (Function.update h.prv it (some p)) c (some it) c = some it from
              Function.update_same _ _ _⟩]
          dsimp only
          rw [show Function.update (Function.update h.nxt it (some c)) p (some it) c
              = h.nxt c from by
            rw [Function.update_noteq hcp _ _,
              Function.update_noteq (fun he => hitc he.symm) _ _]]
          rw [linksFrom_frame h _ ys _ _ ?_]
          · exact hys_chain
          · intro m hm
            have hmit : m ≠ it := fun he => hity (he ▸ hm)
            have hmc : m ≠ c := fun he => hcy (he ▸ hm)
            have hmp : m ≠ p := fun he => hdisj hpmem (by rw [← he]; exact hm)
            constructor
            · show Function.update (Function.update h.nxt it (some c)) p (some it) m
                  = h.nxt m
              rw [Function.update_noteq hmp _ _, Function.update_noteq hmit _ _]
            · show Function.update (Function.update h.prv it (some p)) c (some it) m
                  = h.prv m
              rw [Function.update_noteq hmc _ _, Function.update_noteq hmit _ _]
        · intro m hm
          have hmp : m ≠ p := fun he => hpdl (he ▸ hm)
          have hmc : m ≠ c := fun he => hcx (he ▸ List.dropLast_subset _ hm)
          have hmit : m ≠ it := fun he => hitx (he ▸ List.dropLast_subset _ hm)
          constructor
          · show Function.update (Function.update h.nxt it (some c)) p (some it) m
                = h.nxt m
            rw [Function.update_noteq hmp _ _, Function.update_noteq hmit _ _]
          · show Function.update (Function.update h.prv it (some p)) c (some it) m
                = h.prv m
            rw [Function.update_noteq hmc _ _, Function.update_noteq hmit _ _]
        · show Function.update (Function.update h.prv it (some p)) c (some it) p = h.prv p
          rw [Function.update_noteq hcp.symm _ _,
            Function.update_noteq (fun he => hitp2 he.symm) _ _]
      · rw [show (x0 :: xs1) ++ it :: c :: ys = (x0 :: xs1) ++ it :: (c :: ys) from rfl,
          List.nodup_middle, List.nodup_cons]
        exact ⟨by simpa using hit, by simpa using hnd⟩


theorem replace_preserves (h : Heap) (child : Option Nat) (l : List Nat) (w : ℕ) (it : Nat)
    (hwf : WFList h child l)
    (hit : it ∉ l) (hitn : h.nxt it = none) (hitp : h.prv it = none) :
    ∃ l2, WFList (cJSON_ReplaceItemInArray h child w it).1
        (cJSON_ReplaceItemInArray h child w it).2 l2 := by
  obtain ⟨hlk, hnd⟩ := hwf
  have hwalk : walkIdx h child w = (l.drop w).head? := walkIdx_drop h l child none hlk w
  unfold cJSON_ReplaceItemInArray
  rcases hdw : (l.drop w).head? with _ | c
  · rw [hwalk, hdw]
    exact ⟨l, hlk, hnd⟩
  · rw [hwalk, hdw]
    dsimp only
    obtain ⟨ys, hys⟩ : ∃ ys, l.drop w = c :: ys := by
      rcases hlw : l.drop w with _ | ⟨c2, ys⟩
      · rw [hlw] at hdw
        exact absurd hdw (by simp)
      · rw [hlw] at hdw
        simp only [Option.some.injEq, List.head?_cons] at hdw
        exact ⟨ys, by rw [hdw]⟩
    have hl : l = l.take w ++ c :: ys := by rw [← hys, List.take_append_drop]
    rw [hl] at hlk hnd hit
    have hndm := hnd
    rw [List.nodup_middle, List.nodup_cons] at hndm
    obtain ⟨hcmem, hndxy⟩ := hndm
    obtain ⟨pend, hpend⟩ := (linksB_iff_linksFrom h _ child none).mp hlk
    rw [linksFrom_append] at hpend
    rcases hmid : linksFrom h child none (l.take w) with _ | mid
    · rw [hmid] at hpend
      exact absurd hpend (by simp)
    rw [hmid] at hpend
    simp only [Option.bind] at hpend
    obtain ⟨hcur, hprvc, hys_chain⟩ := linksFrom_head h c ys mid.1 mid.2 _ hpend
    have hdisj := List.disjoint_of_nodup_append hndxy
    have hitc : it ≠ c := fun he => hit (by simp [he])
    have hity : it ∉ ys := fun hm => hit (by simp [hm])
    have hcy : c ∉ ys := fun hm => hcmem (List.mem_append.mpr (Or.inr hm))
    rw [show Function.update h.nxt it (h.nxt c) it = h.nxt c from
      Function.update_same _ _ _]
    rcases hxs : l.take w with _ | ⟨x0, xs1⟩
    · -- replacing the head
      rw [hxs] at hmid hit hnd
      simp only [linksFrom, Option.some.injEq] at hmid
      have hchild : child = some c := by rw [← hmid] at hcur; exact hcur
      have hpc : h.prv c = none := by rw [← hmid] at hprvc; exact hprvc
      rcases hysc : ys with _ | ⟨nx, ys2⟩
      · rw [hysc] at hys_chain
        simp only [linksFrom, Option.some.injEq, Prod.mk.injEq] at hys_chain
        have hnc : h.nxt c = none := hys_chain.1
        rw [hnc]
        dsimp only
        rw [if_pos hchild.symm]
        refine ⟨[it], ?_, by simp⟩
        rw [linksB_cons_iff]
        refine ⟨rfl, ?_, ?_⟩
        · show Function.update (Function.update h.prv it (h.prv c)) c none it = none
          rw [Function.update_noteq hitc _ _, Function.update_same, hpc]
        · show linksB _ (Function.update (Function.update h.nxt it none) c none it)
            (some it) [] = true
          rw [linksB_nil_iff, Function.update_noteq hitc _ _, Function.update_same]
      · rw [hysc] at hys_chain hity hcy hndxy
        obtain ⟨hnc, hpnx, hys2_chain⟩ := linksFrom_head h nx ys2 _ _ _ hys_chain
        rw [hnc]
        dsimp only
        rw [if_pos hchild.symm]
        have hnxc : nx ≠ c := fun he => hcy (by simp [he])
        have hnxit : nx ≠ it := fun he => hity (by simp [he])
        have hnxys2 : nx ∉ ys2 := by
          have := hndxy.of_append_right
          rw [List.nodup_cons] at this
          exact this.1
        have hcys2 : c ∉ ys2 := fun hm => hcy (by simp [hm])
        have hitys2 : it ∉ ys2 := fun hm => hity (by simp [hm])
        refine ⟨it :: nx :: ys2, ?_, ?_⟩
        · rw [linksB_cons_iff]
          refine ⟨rfl, ?_, ?_⟩
          · show Function.update (Function.update (Function.update h.prv it (h.prv c)) nx
                (some it)) c none it = none
            rw [Function.update_noteq hitc _ _,
              Function.update_noteq (fun he => hnxit he.symm) _ _,
              Function.update_same, hpc]
          · rw [linksB_cons_iff]
            refine ⟨?_, ?_, ?_⟩
            · show Function.update (Function.update h.nxt it (some nx)) c none it = some nx
              rw [Function.update_noteq hitc _ _, Function.update_same]
            · show Function.update (Function.update (Function.update h.prv it (h.prv c)) nx
                  (some it)) c none nx = some it
              rw [Function.update_noteq hnxc _ _, Function.update_same]
            · show linksB _ (Function.update (Function.update h.nxt it (some nx)) c none nx)
                (some nx) ys2 = true
              rw [Function.update_noteq hnxc _ _, Function.update_noteq hnxit _ _]
              rw [linksB_iff_linksFrom]
              refine ⟨pend, ?_⟩
              rw [linksFrom_frame h _ ys2 _ _ ?_]
              · exact hys2_chain
              · intro m hm
                have hmit : m ≠ it := fun he => hitys2 (he ▸ hm)
                have hmc : m ≠ c := fun he => hcys2 (he ▸ hm)
                have hmnx : m ≠ nx := fun he => hnxys2 (he ▸ hm)
                constructor
                · show Function.update (Function.update h.nxt it (some nx)) c none m
                      = h.nxt m
                  rw [Function.update_noteq hmc _ _, Function.update_noteq hmit _ _]
                · show Function.update (Function.update (Function.update h.prv it (h.prv c))
                      nx (some it)) c none m = h.prv m
                  rw [Function.update_noteq hmc _ _, Function.update_noteq hmnx _ _,
                    Function.update_noteq hmit _ _]
        · rw [List.nodup_cons, List.nodup_cons]
          exact ⟨by simp [hnxit.symm, hitys2], hnxys2, (hndxy.of_append_right.of_cons)⟩
    · -- replacing a non-head node
      rw [hxs] at hmid hcmem hndxy hdisj hit hnd
      obtain ⟨hchild0, -, -⟩ := linksFrom_head h x0 xs1 child none mid hmid
      have hcx : c ∉ x0 :: xs1 := fun hm => hcmem (List.mem_append.mpr (Or.inl hm))
      have hitx : it ∉ x0 :: xs1 := fun hm => hit (List.mem_append.mpr (Or.inl hm))
      set p := (x0 :: xs1).getLast (by simp) with hp
      have hpmem : p ∈ x0 :: xs1 := List.getLast_mem _
      have hdecomp : x0 :: xs1 = (x0 :: xs1).dropLast ++ [p] :=
        (List.dropLast_append_getLast (by simp)).symm
      have hpdl : p ∉ (x0 :: xs1).dropLast := by
        have hnd2 : ((x0 :: xs1).dropLast ++ [p]).Nodup := by
          rw [← hdecomp]
          exact hndxy.of_append_left
        rw [show (x0 :: xs1).dropLast ++ [p] = (x0 :: xs1).dropLast ++ p :: [] from rfl,
          List.nodup_middle, List.nodup_cons] at hnd2
        simpa using hnd2.1
      rw [hdecomp] at hmid
      have hmid2 := linksFrom_last h _ p child none mid hmid
      have hpc : h.prv c = some p := by rw [hprvc, hmid2]
      have hcp : c ≠ p := fun he => hcx (he ▸ hpmem)
      have hitp2 : it ≠ p := fun he => hitx (he ▸ hpmem)
      have hifneg : ¬(some c = child) := by
        rw [hchild0]
        intro he
        simp only [Option.some.injEq] at he
        exact hcx (by simp [he])
      rcases hysc : ys with _ | ⟨nx, ys2⟩
      · rw [hysc] at hys_chain
        simp only [linksFrom, Option.some.injEq, Prod.mk.injEq] at hys_chain
        have hnc : h.nxt c = none := hys_chain.1
        rw [hnc]
        dsimp only
        rw [if_neg hifneg]
        rw [show Function.update h.prv it (h.prv c) it = h.prv c from
          Function.update_same _ _ _, hpc]
        dsimp only
        refine ⟨(x0 :: xs1) ++ [it], ?_, ?_⟩
        · rw [linksB_iff_linksFrom]
          refine ⟨some it, ?_⟩
          have hretarget := linksFrom_retarget h
            { nxt := Function.update (Function.update (Function.update h.nxt it none) p
                (some it)) c none,
              prv := Function.update (Function.update h.prv it (some p)) c none,
              key := h.key }
            ((x0 :: xs1).dropLast) p child none mid hmid ?_ ?_
          · rw [show (x0 :: xs1) ++ [it] = ((x0 :: xs1).dropLast ++ [p]) ++ [it] from by
              rw [← hdecomp]]
            rw [linksFrom_append, hretarget]
            simp only [Option.bind]
            rw [show Function.update (Function.update (Function.update h.nxt it none) p
                (some it)) c none p = some it from by
              rw [Function.update_noteq hcp.symm _ _, Function.update_same]]
            rw [linksFrom, if_pos ⟨rfl, show Function.update
                  (Function.update h.prv it (some p)) c none it = some p from by
                rw [Function.update_noteq hitc _ _, Function.update_same]⟩]
            dsimp only
            rw [show Function.update (Function.update (Function.update h.nxt it none) p
                (some it)) c none it = none from by
              rw [Function.update_noteq hitc _ _, Function.update_noteq hitp2 _ _,
                Function.update_same]]
            rfl
          · intro m hm
            have hmp : m ≠ p := fun he => hpdl (he ▸ hm)
            have hmc : m ≠ c := fun he => hcx (he ▸ List.dropLast_subset _ hm)
            have hmit : m ≠ it := fun he => hitx (he ▸ List.dropLast_subset _ hm)
            constructor
            · show Function.update (Function.update (Function.update h.nxt it none) p
                  (some it)) c none m = h.nxt m
              rw [Function.update_noteq hmc _ _, Function.update_noteq hmp _ _,
                Function.update_noteq hmit _ _]
            · show Function.update (Function.update h.prv it (some p)) c none m = h.prv m
              rw [Function.update_noteq hmc _ _, Function.update_noteq hmit _ _]
          · show Function.update (Function.update h.prv it (some p)) c none p = h.prv p
            rw [Function.update_noteq hcp.symm _ _,
              Function.update_noteq (fun he => hitp2 he.symm) _ _]
        · rw [show (x0 :: xs1) ++ [it] = (x0 :: xs1) ++ it :: [] from rfl,
            List.nodup_middle, List.nodup_cons]
          refine ⟨by simpa using hitx, by simpa using hndxy.of_append_left⟩
      · rw [hysc] at hys_chain hity hcy hndxy hdisj
        obtain ⟨hnc, hpnx, hys2_chain⟩ := linksFrom_head h nx ys2 _ _ _ hys_chain
        rw [hnc]
        dsimp only
        rw [if_neg hifneg]
        have hnxc : nx ≠ c := fun he => hcy (by simp [he])
        have hnxit : nx ≠ it := fun he => hity (by simp [he])
        have hnxp : nx ≠ p := fun he => hdisj hpmem (by simp [he])
        have hnxys2 : nx ∉ ys2 := by
          have := hndxy.of_append_right
          rw [List.nodup_cons] at this
          exact this.1
        have hcys2 : c ∉ ys2 := fun hm => hcy (by simp [hm])
        have hitys2 : it ∉ ys2 := fun hm => hity (by simp [hm])
        rw [show Function.update (Function.update h.prv it (h.prv c)) nx (some it) it
            = h.prv c from by
          rw [Function.update_noteq (fun he => hnxit he.symm) _ _, Function.update_same]]
        rw [hpc]
        dsimp only
        refine ⟨(x0 :: xs1) ++ it :: nx :: ys2, ?_, ?_⟩
        · rw [linksB_iff_linksFrom]
          refine ⟨pend, ?_⟩
          have hretarget := linksFrom_retarget h
            { nxt := Function.update (Function.update (Function.update h.nxt it (some nx)) p
                (some it)) c none,
              prv := Function.update (Function.update (Function.update h.prv it (some p)) nx
                (some it)) c none,
              key := h.key }
            ((x0 :: xs1).dropLast) p child none mid hmid ?_ ?_
          · rw [show (x0 :: xs1) ++ it :: nx :: ys2
                = ((x0 :: xs1).dropLast ++ [p]) ++ it :: nx :: ys2 from by rw [← hdecomp]]
            rw [linksFrom_append, hretarget]
            simp only [Option.bind]
            rw [show Function.update (Function.update (Function.update h.nxt it (some nx)) p
                (some it)) c none p = some it from by
              rw [Function.update_noteq hcp.symm _ _, Function.update_same]]
            rw [linksFrom, if_pos ⟨rfl, show Function.update (Function.update
                  (Function.update h.prv it (some p)) nx (some it)) c none it
                  = some p from by
                rw [Function.update_noteq hitc _ _,
                  Function.update_noteq (fun he => hnxit he.symm) _ _,
                  Function.update_same]⟩]
            dsimp only
            rw [show Function.update (Function.update (Function.update h.nxt it (some nx)) p
                (some it)) c none it = some nx from by
              rw [Function.update_noteq hitc _ _, Function.update_noteq hitp2 _ _,
                Function.update_same]]
            rw [linksFrom, if_pos ⟨rfl, show Function.update (Function.update
                  (Function.update h.prv it (some p)) nx (some it)) c none nx
                  = some it from by
                rw [Function.update_noteq hnxc _ _, Function.update_same]⟩]
            dsimp only
            rw [show Function.update (Function.update (Function.update h.nxt it (some nx)) p
                (some it)) c none nx = h.nxt nx from by
              rw [Function.update_noteq hnxc _ _, Function.update_noteq hnxp _ _,
                Function.update_noteq hnxit _ _]]
            rw [linksFrom_frame h _ ys2 _ _ ?_]
            · exact hys2_chain
            · intro m hm
              have hmit : m ≠ it := fun he => hitys2 (he ▸ hm)
              have hmc : m ≠ c := fun he => hcys2 (he ▸ hm)
              have hmnx : m ≠ nx := fun he => hnxys2 (he ▸ hm)
              have hmp : m ≠ p := fun he => hdisj hpmem (by simp [he ▸ hm])
              constructor
              · show Function.update (Function.update (Function.update h.nxt it (some nx)) p
                    (some it)) c none m = h.nxt m
                rw [Function.update_noteq hmc _ _, Function.update_noteq hmp _ _,
                  Function.update_noteq hmit _ _]
              · show Function.update (Function.update (Function.update h.prv it (some p)) nx
                    (some it)) c none m = h.prv m
                rw [Function.update_noteq hmc _ _, Function.update_noteq hmnx _ _,
                  Function.update_noteq hmit _ _]
          · intro m hm
            have hmp : m ≠ p := fun he => hpdl (he ▸ hm)
            have hmc : m ≠ c := fun he => hcx (he ▸ List.dropLast_subset _ hm)
            have hmit : m ≠ it := fun he => hitx (he ▸ List.dropLast_subset _ hm)
            have hmnx : m ≠ nx := fun he => hdisj (List.dropLast_subset _ hm) (by simp [he])
            constructor
            · show Function.update (Function.update (Function.update h.nxt it (some nx)) p
                  (some it)) c none m = h.nxt m
              rw [Function.update_noteq hmc _ _, Function.update_noteq hmp _ _,
                Function.update_noteq hmit _ _]
            · show Function.update (Function.update (Function.update h.prv it (some p)) nx
                  (some it)) c none m = h.prv m
              rw [Function.update_noteq hmc _ _, Function.update_noteq hmnx _ _,
                Function.update_noteq hmit _ _]
          · show Function.update (Function.update (Function.update h.prv it (some p)) nx
                (some it)) c none p = h.prv p
            rw [Function.update_noteq hcp.symm _ _,
              Function.update_noteq hnxp.symm _ _,
              Function.update_noteq (fun he => hitp2 he.symm) _ _]
        · have hit2 : it ∉ (x0 :: xs1) ++ nx :: ys2 := by
            intro hm
            rcases List.mem_append.mp hm with hm1 | hm2
            · exact hitx hm1
            · exact hity hm2
          rw [show (x0 :: xs1) ++ it :: nx :: ys2 = (x0 :: xs1) ++ it :: (nx :: ys2) from
            rfl, List.nodup_middle, List.nodup_cons]
          exact ⟨by simpa using hit2, by simpa using hndxy⟩


theorem WF_key_congr (h : Heap) (g : Nat → Bytes) (child : Option Nat) (l : List Nat)
    (hwf : WFList h child l) : WFList { h with key := g } child l := by
  obtain ⟨hlk, hnd⟩ := hwf
  refine ⟨?_, hnd⟩
  rw [linksB_iff_linksFrom] at hlk ⊢
  obtain ⟨p, hp⟩ := hlk
  refine ⟨p, ?_⟩
  rw [linksFrom_frame h { h with key := g } l child none (fun n hn => ⟨rfl, rfl⟩)]
  exact hp

/-- C9: every mutation of a well-formed sibling list (append to array or
object, insert at an index, detach by index or key, replace by index or
key) leaves some duplicate-free node list exactly chained by the next
links with matching prev back-links (doubly linked, nil-terminated, hence
acyclic), and afterwards the parent's first-child pointer is the unique
listed node whose prev is unset.  Newly linked nodes must be fresh:
outside the list with clear links. -/
theorem c9_mutation_sibling_invariant (h : Heap) (child : Option Nat) (l : List Nat)
    (op : MutOp)
    (hwf : WFList h child l)
    (hfresh : ∀ it, opItem op = some it → it ∉ l ∧ h.nxt it = none ∧ h.prv it = none) :
    ∃ l2, WFList (applyOp h child op l.length).1 (applyOp h child op l.length).2 l2
      ∧ ∀ n ∈ l2, (applyOp h child op l.length).1.prv n = none
          → (applyOp h child op l.length).2 = some n := by
  have main : ∃ l2,
      WFList (applyOp h child op l.length).1 (applyOp h child op l.length).2 l2 := by
    cases op with
    | addArr it =>
      obtain ⟨h1, h2, h3⟩ := hfresh it rfl
      exact ⟨l ++ [it], add_preserves h child l it l.length hwf (by omega) h1 h2 h3⟩
    | addObj k it =>
      obtain ⟨h1, h2, h3⟩ := hfresh it rfl
      have hwf2 := WF_key_congr h (Function.update h.key it k) child l hwf
      exact ⟨l ++ [it],
        add_preserves { h with key := Function.update h.key it k } child l it l.length
          hwf2 (by omega) h1 h2 h3⟩
    | insert w it =>
      obtain ⟨h1, h2, h3⟩ := hfresh it rfl
      exact insert_preserves h child l w it l.length hwf (by omega) h1 h2 h3
    | detach w =>
      exact detach_preserves h child l w hwf
    | detachKey k =>
      show ∃ l2, WFList (cJSON_DetachItemFromObject h child k l.length).1
        (cJSON_DetachItemFromObject h child k l.length).2.1 l2
      unfold cJSON_DetachItemFromObject
      cases findKeyIdx h child k 0 l.length with
      | none => exact ⟨l, hwf⟩
      | some i => exact detach_preserves h child l i hwf
    | replace w it =>
      obtain ⟨h1, h2, h3⟩ := hfresh it rfl
      exact replace_preserves h child l w it hwf h1 h2 h3
    | replaceKey k it =>
      obtain ⟨h1, h2, h3⟩ := hfresh it rfl
      show ∃ l2, WFList (cJSON_ReplaceItemInObject h child k it l.length).1
        (cJSON_ReplaceItemInObject h child k it l.length).2 l2
      unfold cJSON_ReplaceItemInObject
      cases findKeyIdx h child k 0 l.length with
      | none => exact ⟨l, hwf⟩
      | some i =>
        have hwf2 := WF_key_congr h (Function.update h.key it k) child l hwf
        exact replace_preserves { h with key := Function.update h.key it k } child l i it
          hwf2 h1 h2 h3
  obtain ⟨l2, hwf2⟩ := main
  exact ⟨l2, hwf2, first_unique _ _ _ hwf2⟩

/-- C9 witness: appending a fresh node to a two-node chain, with the
well-formedness and freshness hypotheses checked on the concrete heap. -/
theorem c9_mutation_sibling_invariant_witness :
    WFList ⟨fun n => if n = 1 then some 2 else none,
            fun n => if n = 2 then some 1 else none,
            fun _ => []⟩ (some 1) [1, 2]
    ∧ ∃ l2, WFList (applyOp ⟨fun n => if n = 1 then some 2 else none,
            fun n => if n = 2 then some 1 else none,
            fun _ => []⟩ (some 1) (.addArr 3) ([1, 2] : List Nat).length).1
          (applyOp ⟨fun n => if n = 1 then some 2 else none,
            fun n => if n = 2 then some 1 else none,
            fun _ => []⟩ (some 1) (.addArr 3) ([1, 2] : List Nat).length).2 l2
        ∧ ∀ n ∈ l2, (applyOp ⟨fun n => if n = 1 then some 2 else none,
            fun n => if n = 2 then some 1 else none,
            fun _ => []⟩ (some 1) (.addArr 3) ([1, 2] : List Nat).length).1.prv n = none
          → (applyOp ⟨fun n => if n = 1 then some 2 else none,
            fun n => if n = 2 then some 1 else none,
            fun _ => []⟩ (some 1) (.addArr 3) ([1, 2] : List Nat).length).2 = some n :=
  ⟨⟨by decide, by decide⟩,
   c9_mutation_sibling_invariant _ (some 1) [1, 2] (.addArr 3) ⟨by decide, by decide⟩
     (fun it hmem => by
        simp only [opItem, Option.some.injEq] at hmem
        subst hmem
        exact ⟨by decide, by decide, by decide⟩)⟩

end CJson
